import Mathlib

/-!
Verification development for the Block Store core of the Diem consensus
engine (`consensus/src/block_storage/block_store.rs`).

The Block Store is shallowly embedded as a pure state machine.  The
in-memory `BlockTree` is a record of association lists; the external
collaborators (the Executor, the Persistent Log and the Clock) are
represented by an `Oracle` over an abstract oracle-state type, and every
Block Store operation returns its result together with the new tree, the
new oracle state and the list of external effects it performed, in order.

Hashes, payloads, accumulator hashes and similar opaque values are
represented by `Nat`.  Fields of the source structures that no operation
modelled here ever reads (metrics counters, signatures, the various
`highest_*` certificate caches outside `highest_ledger_info` and
`highest_timeout_cert`) are omitted; everything the modelled operations
read or write is carried faithfully.

The file `block_tree.rs` of the repository is not part of the provided
sources; the `BlockTree` operations are therefore modelled from the
specification (marked `Modelled from the spec:`), while everything in
`block_store.rs` is translated from the source.
-/

namespace Diem

/-- A consensus block (`consensus_types::block::Block`): content-hash id,
round, epoch, parent pointer, proposal timestamp, opaque payload. -/
structure Block where
  id : Nat
  epoch : Nat
  round : Nat
  parent_id : Nat
  timestamp_usecs : Nat
  payload : Nat
  deriving Repr, DecidableEq

/-- The result of executing a block (`executor_types::StateComputeResult`),
collapsed to the accumulator root hash and the number of leaves. -/
structure StateComputeResult where
  root_hash : Nat
  num_leaves : Nat
  deriving Repr, DecidableEq

/-- A block paired with its execution result
(`consensus_types::executed_block::ExecutedBlock`). -/
structure ExecutedBlock where
  block : Block
  compute_result : StateComputeResult
  deriving Repr, DecidableEq

/-- The `(epoch, round, id, version, executed_state_id)` tuple certified by
a quorum certificate (`diem_types::block_info::BlockInfo`). -/
structure BlockInfo where
  epoch : Nat
  round : Nat
  id : Nat
  version : Nat
  executed_state_id : Nat
  deriving Repr, DecidableEq

/-- A finality proof (`LedgerInfoWithSignatures`), collapsed to the
consensus block id its inner ledger info names for commit. -/
structure LedgerInfoWithSignatures where
  consensus_block_id : Nat
  deriving Repr, DecidableEq

/-- A quorum certificate: the block info it certifies, the block info it
commits (round 0 when it commits nothing), and its signed ledger info. -/
structure QuorumCert where
  certified_block : BlockInfo
  commit_info : BlockInfo
  ledger_info : LedgerInfoWithSignatures
  deriving Repr, DecidableEq

/-- A timeout certificate; the core only reads its round. -/
structure TimeoutCertificate where
  round : Nat
  deriving Repr, DecidableEq

/-- The recovery root: root block plus its certificates
(`persistent_liveness_storage::RootInfo`). -/
structure RootInfo where
  root_block : Block
  root_qc : QuorumCert
  root_ordered_cert : QuorumCert
  root_commit_li : LedgerInfoWithSignatures
  deriving Repr, DecidableEq

/-- Root accumulator metadata (`persistent_liveness_storage::RootMetadata`). -/
structure RootMetadata where
  accu_hash : Nat
  version : Nat
  num_leaves : Nat
  deriving Repr, DecidableEq

/-- The designated empty-accumulator placeholder hash
(`ACCUMULATOR_PLACEHOLDER_HASH`), used by decoupled execution. -/
def accumulator_placeholder_hash : Nat := 0

/-- Association-list lookup by `Nat` key (the id-keyed maps of the tree). -/
def lookupId {α : Type} : List (Nat × α) → Nat → Option α
  | [], _ => none
  | (k, v) :: rest, id => if k = id then some v else lookupId rest id

/-- The in-memory block tree.  Modelled from the spec: the id-keyed block
map, the id-keyed QC map, the ordered and commit root ids, the latest
finality proof, the optional highest timeout certificate, and the bounded
FIFO of recently pruned ids with its bound. -/
structure BlockTree where
  blocks : List (Nat × ExecutedBlock)
  id_to_quorum_cert : List (Nat × QuorumCert)
  ordered_root_id : Nat
  commit_root_id : Nat
  highest_ledger_info : LedgerInfoWithSignatures
  highest_timeout_cert : Option TimeoutCertificate
  max_pruned_blocks_in_mem : Nat
  pruned_block_ids : List Nat
  deriving Repr, DecidableEq

namespace BlockTree

/-- Modelled from the spec: `get_block` looks the id up in the block map. -/
def get_block (t : BlockTree) (id : Nat) : Option ExecutedBlock :=
  lookupId t.blocks id

/-- Round of the ordered root block (0 when the root block is absent,
which never happens in reachable trees). -/
def ordered_root_round (t : BlockTree) : Nat :=
  match t.get_block t.ordered_root_id with
  | some b => b.block.round
  | none => 0

/-- Round of the commit root block (0 when absent). -/
def commit_root_round (t : BlockTree) : Nat :=
  match t.get_block t.commit_root_id with
  | some b => b.block.round
  | none => 0

end BlockTree

/-- Parent-link walk from `id` towards `rootId`: collects blocks while
their round exceeds `rootRound`, then succeeds exactly when the walk has
arrived at `rootId`.  `fuel` bounds the recursion; rounds strictly
decrease along parent links in well-formed trees, so a fuel of the
starting block's round suffices there. -/
def pathAux (bl : List (Nat × ExecutedBlock)) (rootId rootRound : Nat) :
    Nat → Nat → List ExecutedBlock → Option (List ExecutedBlock)
  | fuel, id, acc =>
    match lookupId bl id with
    | none => none
    | some b =>
      if b.block.round ≤ rootRound then
        if id = rootId then some acc else none
      else
        match fuel with
        | 0 => none
        | f + 1 => pathAux bl rootId rootRound f b.block.parent_id (b :: acc)

namespace BlockTree

/-- Modelled from the spec: the chain `[root_child, …, id]` from the block
`rootId` down to `id`, obtained by walking parent links; `none` when `id`
is not a descendant of `rootId`. -/
def path_from_root_id (t : BlockTree) (rootId id : Nat) : Option (List ExecutedBlock) :=
  match t.get_block rootId with
  | none => none
  | some rootB =>
    match t.get_block id with
    | none => none
    | some b => pathAux t.blocks rootId rootB.block.round (b.block.round + 1) id []

/-- `path_from_ordered_root` of the reader interface. -/
def path_from_ordered_root (t : BlockTree) (id : Nat) : Option (List ExecutedBlock) :=
  t.path_from_root_id t.ordered_root_id id

/-- Modelled from the spec: `insert_block` fails when the parent is
absent, returns the existing handle when a block of the same id already
exists, fails when the round is not strictly greater than the parent's,
and otherwise records the executed block under its id. -/
def insert_block (t : BlockTree) (eb : ExecutedBlock) : Except String (ExecutedBlock × BlockTree) :=
  match t.get_block eb.block.id with
  | some existing => .ok (existing, t)
  | none =>
    match t.get_block eb.block.parent_id with
    | none => .error "parent block not found"
    | some parent =>
      if parent.block.round < eb.block.round then
        .ok (eb, { t with blocks := (eb.block.id, eb) :: t.blocks })
      else .error "block round not greater than parent round"

/-- Modelled from the spec: `insert_quorum_cert` keys the QC by its
certified block id; a duplicate for an already-certified id keeps the
existing certificate. -/
def insert_quorum_cert (t : BlockTree) (qc : QuorumCert) : BlockTree :=
  if (lookupId t.id_to_quorum_cert qc.certified_block.id).isSome then t
  else { t with id_to_quorum_cert := (qc.certified_block.id, qc) :: t.id_to_quorum_cert }

/-- Modelled from the spec: `replace_timeout_cert` installs the TC
unconditionally. -/
def replace_timeout_cert (t : BlockTree) (tc : TimeoutCertificate) : BlockTree :=
  { t with highest_timeout_cert := some tc }

/-- Modelled from the spec: advance the ordered root id. -/
def update_ordered_root_id (t : BlockTree) (id : Nat) : BlockTree :=
  { t with ordered_root_id := id }

/-- Modelled from the spec: record the latest finality proof. -/
def update_highest_ledger_info (t : BlockTree) (li : LedgerInfoWithSignatures) : BlockTree :=
  { t with highest_ledger_info := li }

/-- Modelled from the spec and the `prune_tree` doc comment of
`block_store.rs`: the ids of every block that is not in the subtree of
`next_root_id`, i.e. whose parent chain does not reach `next_root_id`. -/
def find_blocks_to_prune (t : BlockTree) (next_root_id : Nat) : List Nat :=
  (t.blocks.map Prod.fst).filter (fun id => (t.path_from_root_id next_root_id id).isNone)

/-- FIFO append bounded by `max`: oldest entries are evicted first. -/
def fifoAdd (max : Nat) (fifo ids : List Nat) : List Nat :=
  let l := fifo ++ ids
  l.drop (l.length - max)

/-- Modelled from the spec: atomically set the commit root and remove the
pruned ids from the block and QC maps, pushing them into the FIFO. -/
def update_commit_id_and_process_pruned_blocks
    (t : BlockTree) (new_commit_id : Nat) (pruned : List Nat) : BlockTree :=
  { t with
    commit_root_id := new_commit_id
    blocks := t.blocks.filter (fun e => decide (e.1 ∉ pruned))
    id_to_quorum_cert := t.id_to_quorum_cert.filter (fun e => decide (e.1 ∉ pruned))
    pruned_block_ids := fifoAdd t.max_pruned_blocks_in_mem t.pruned_block_ids pruned }

/-- Modelled from the spec: all QCs whose commit info names a real block
(nonzero commit round). -/
def get_all_quorum_certs_with_commit_info (t : BlockTree) : List QuorumCert :=
  (t.id_to_quorum_cert.map Prod.snd).filter (fun qc => qc.commit_info.round ≠ 0)

/-- Modelled from the spec: all block ids currently in the tree. -/
def get_all_block_id (t : BlockTree) : List Nat :=
  t.blocks.map Prod.fst

/-- Modelled from the spec: create a tree holding exactly the executed
root block, its QC, the latest finality proof and the carried-over TC. -/
def new (root : ExecutedBlock) (root_qc : QuorumCert) (_root_ordered_cert : QuorumCert)
    (root_commit_li : LedgerInfoWithSignatures) (max_pruned : Nat)
    (htc : Option TimeoutCertificate) : BlockTree :=
  { blocks := [(root.block.id, root)]
    id_to_quorum_cert := [(root_qc.certified_block.id, root_qc)]
    ordered_root_id := root.block.id
    commit_root_id := root.block.id
    highest_ledger_info := root_commit_li
    highest_timeout_cert := htc
    max_pruned_blocks_in_mem := max_pruned
    pruned_block_ids := [] }

end BlockTree

/-- Errors the executor can report (`executor_types::Error`), collapsed to
the case the Block Store inspects plus an opaque remainder. -/
inductive ExecError where
  | blockNotFound (parent_id : Nat)
  | internalError (code : Nat)
  deriving Repr, DecidableEq

/-- Errors surfaced by the Block Store operations, one constructor per
`bail` / `ensure` / `context` / panic site of `block_store.rs`. -/
inductive StoreErr where
  | staleBlock
  | execError (e : ExecError)
  | saveFailed (msg : String)
  | treeInsertFailed (msg : String)
  | commitBlockNotFound
  | commitStale
  | qcBlockMissing
  | qcInconsistent
  | assertionFailed
  deriving Repr, DecidableEq

/-- The error message of the corresponding `format_err` / `ensure` site. -/
def StoreErr.message : StoreErr → String
  | .staleBlock => "Block with old round"
  | .execError _ => "executor error"
  | .saveFailed msg => msg
  | .treeInsertFailed msg => msg
  | .commitBlockNotFound => "Committed block id not found"
  | .commitStale => "Committed block round lower than root"
  | .qcBlockMissing => "Insert without having the block in store first"
  | .qcInconsistent => "QC has different block info than local"
  | .assertionFailed => "assertion failed"

/-- An external call performed by a Block Store operation, in program
order.  Persistence effects record whether the log call succeeded. -/
inductive Effect where
  | compute (b : Block) (parent_id : Nat)
  | waitUntil (deadline : Nat)
  | saveTree (blocks : List Block) (qcs : List QuorumCert) (ok : Bool)
  | saveHighestTimeoutCert (tc : TimeoutCertificate) (ok : Bool)
  | pruneTreeLog (ids : List Nat) (ok : Bool)
  | execCommit (block_ids : List Nat) (proof : LedgerInfoWithSignatures)
  deriving Repr, DecidableEq

def Effect.isCompute : Effect → Bool
  | .compute _ _ => true
  | _ => false

def isOkE {ε α : Type} : Except ε α → Bool
  | .ok _ => true
  | .error _ => false

/-- The external collaborators of the Block Store, as a deterministic
state machine over an abstract oracle state `σ`: the Executor
(`compute`, the asynchronous `commit`), the Persistent Log (`save_tree`,
`save_highest_timeout_cert`, `prune_tree`) and the Clock (`wait_until`). -/
structure Oracle (σ : Type) where
  compute : σ → Block → Nat → Except ExecError StateComputeResult × σ
  save_tree : σ → List Block → List QuorumCert → Except Nat Unit × σ
  save_highest_timeout_cert : σ → TimeoutCertificate → Except Nat Unit × σ
  prune_tree : σ → List Nat → Except Nat Unit × σ
  wait_until : σ → Nat → σ
  exec_commit : σ → List Nat → LedgerInfoWithSignatures → σ

variable {σ : Type}

/-- `BlockStore::execute_block`: ask the executor to compute the block
against its parent and pair the block with the result. -/
def execute_block (o : Oracle σ) (w : σ) (b : Block) :
    Except ExecError ExecutedBlock × σ :=
  match o.compute w b b.parent_id with
  | (.ok res, w1) => (.ok ⟨b, res⟩, w1)
  | (.error e, w1) => (.error e, w1)

/-- The re-execution loop of `execute_and_insert_block`'s recovery path:
re-execute each block of the chain in order, stopping at the first
executor error, which propagates. -/
def reexec (o : Oracle σ) : σ → List Block → Except ExecError Unit × σ × List Effect
  | w, [] => (.ok (), w, [])
  | w, x :: rest =>
    match o.compute w x x.parent_id with
    | (.ok _, w1) =>
      match reexec o w1 rest with
      | (r, w2, tr) => (r, w2, .compute x x.parent_id :: tr)
    | (.error e, w1) => (.error e, w1, [.compute x x.parent_id])

/-- The executor phase of `execute_and_insert_block`: compute the block;
on `BlockNotFound(parent)` re-execute the chain from the ordered root to
the parent and retry once; propagate any other error. -/
def computePhase (o : Oracle σ) (t : BlockTree) (w : σ) (b : Block) :
    Except ExecError ExecutedBlock × σ × List Effect :=
  match o.compute w b b.parent_id with
  | (.ok res, w1) => (.ok ⟨b, res⟩, w1, [.compute b b.parent_id])
  | (.error (.blockNotFound parent_block_id), w1) =>
    let chain := ((t.path_from_ordered_root parent_block_id).getD []).map (·.block)
    match reexec o w1 chain with
    | (.ok _, w2, tr2) =>
      match o.compute w2 b b.parent_id with
      | (.ok res, w3) =>
        (.ok ⟨b, res⟩, w3, .compute b b.parent_id :: (tr2 ++ [.compute b b.parent_id]))
      | (.error e, w3) =>
        (.error e, w3, .compute b b.parent_id :: (tr2 ++ [.compute b b.parent_id]))
    | (.error e, w2, tr2) => (.error e, w2, .compute b b.parent_id :: tr2)
  | (.error e, w1) => (.error e, w1, [.compute b b.parent_id])

/-- `BlockStore::execute_and_insert_block`: return the existing handle on
a duplicate id; reject rounds not above the ordered root; execute (with
`BlockNotFound` recovery); wait out the block timestamp; persist the
block via `save_tree`; finally insert into the tree. -/
def execute_and_insert_block (o : Oracle σ) (t : BlockTree) (w : σ) (b : Block) :
    Except StoreErr ExecutedBlock × BlockTree × σ × List Effect :=
  match t.get_block b.id with
  | some existing_block => (.ok existing_block, t, w, [])
  | none =>
    if t.ordered_root_round < b.round then
      match computePhase o t w b with
      | (.error e, w1, tr1) => (.error (.execError e), t, w1, tr1)
      | (.ok executed_block, w1, tr1) =>
        let block_time := executed_block.block.timestamp_usecs
        let w2 := o.wait_until w1 block_time
        let tr2 := tr1 ++ [.waitUntil block_time]
        match o.save_tree w2 [executed_block.block] [] with
        | (.error _, w3) =>
          (.error (.saveFailed "Insert block failed when saving block"), t, w3,
            tr2 ++ [.saveTree [executed_block.block] [] false])
        | (.ok _, w3) =>
          match t.insert_block executed_block with
          | .error m => (.error (.treeInsertFailed m), t, w3,
              tr2 ++ [.saveTree [executed_block.block] [] true])
          | .ok (handle, t') => (.ok handle, t', w3,
              tr2 ++ [.saveTree [executed_block.block] [] true])
    else (.error .staleBlock, t, w, [])

/-- `match_ordered_only` of `BlockInfo`: equality ignoring the
execution-dependent fields (version and executed state id). -/
def matchOrderedOnly (a b : BlockInfo) : Bool :=
  a.epoch == b.epoch && a.round == b.round && a.id == b.id

/-- The block info of an executed block. -/
def ExecutedBlock.block_info (eb : ExecutedBlock) : BlockInfo :=
  { epoch := eb.block.epoch
    round := eb.block.round
    id := eb.block.id
    version := eb.compute_result.num_leaves
    executed_state_id := eb.compute_result.root_hash }

/-- `BlockStore::insert_single_quorum_cert`: the certified block must be
present and consistent with the QC; persist the QC via `save_tree`, then
install it into the tree. -/
def insert_single_quorum_cert (o : Oracle σ) (t : BlockTree) (w : σ) (qc : QuorumCert) :
    Except StoreErr Unit × BlockTree × σ × List Effect :=
  match t.get_block qc.certified_block.id with
  | none => (.error .qcBlockMissing, t, w, [])
  | some executed_block =>
    if matchOrderedOnly executed_block.block_info qc.certified_block then
      match o.save_tree w [] [qc] with
      | (.error _, w1) =>
        (.error (.saveFailed "Insert block failed when saving quorum"), t, w1,
          [.saveTree [] [qc] false])
      | (.ok _, w1) =>
        (.ok (), t.insert_quorum_cert qc, w1, [.saveTree [] [qc] true])
    else (.error .qcInconsistent, t, w, [])

/-- The round of the current highest timeout certificate (0 when none),
the `map_or(0, |tc| tc.round())` of the source. -/
def highestTimeoutCertRound (t : BlockTree) : Nat :=
  match t.highest_timeout_cert with
  | some cur => cur.round
  | none => 0

/-- `BlockStore::insert_timeout_certificate`: a no-op unless the new TC's
round strictly exceeds the current one; then persist it and install it. -/
def insert_timeout_certificate (o : Oracle σ) (t : BlockTree) (w : σ) (tc : TimeoutCertificate) :
    Except StoreErr Unit × BlockTree × σ × List Effect :=
  if tc.round ≤ highestTimeoutCertRound t then (.ok (), t, w, [])
  else
    match o.save_highest_timeout_cert w tc with
    | (.error _, w1) =>
      (.error (.saveFailed "Timeout certificate insert failed when persisting to DB"), t, w1,
        [.saveHighestTimeoutCert tc false])
    | (.ok _, w1) =>
      (.ok (), t.replace_timeout_cert tc, w1, [.saveHighestTimeoutCert tc true])

/-- `BlockStore::commit`: resolve the target from the finality proof
(error when absent), require its round above the ordered root (error when
stale), assert the commit path nonempty, advance the ordered root, hand
the path to the executor, and on completion run the commit callback:
record the finality proof, prune the log (failures ignored) and advance
the commit root, removing the pruned blocks. -/
def commit (o : Oracle σ) (t : BlockTree) (w : σ) (finality_proof : LedgerInfoWithSignatures) :
    Except StoreErr Unit × BlockTree × σ × List Effect :=
  let block_id_to_commit := finality_proof.consensus_block_id
  match t.get_block block_id_to_commit with
  | none => (.error .commitBlockNotFound, t, w, [])
  | some block_to_commit =>
    if t.ordered_root_round < block_to_commit.block.round then
      let blocks_to_commit := (t.path_from_ordered_root block_id_to_commit).getD []
      if blocks_to_commit.isEmpty then (.error .assertionFailed, t, w, [])
      else
        let t1 := t.update_ordered_root_id block_to_commit.block.id
        let w1 := o.exec_commit w (blocks_to_commit.map (·.block.id)) finality_proof
        let t2 := t1.update_highest_ledger_info finality_proof
        let id_to_remove := t2.find_blocks_to_prune block_to_commit.block.id
        let (pr, w2) := o.prune_tree w1 id_to_remove
        let t3 := t2.update_commit_id_and_process_pruned_blocks block_to_commit.block.id id_to_remove
        (.ok (), t3, w2,
          [.execCommit (blocks_to_commit.map (·.block.id)) finality_proof,
           .pruneTreeLog id_to_remove (isOkE pr)])
    else (.error .commitStale, t, w, [])

/-- Insertion into a list sorted in ascending order of commit round. -/
def insertSortedQC (qc : QuorumCert) : List QuorumCert → List QuorumCert
  | [] => [qc]
  | x :: xs =>
    if qc.commit_info.round ≤ x.commit_info.round then qc :: x :: xs
    else x :: insertSortedQC qc xs

/-- Sort QCs in ascending order of `commit_info().round()`
(`sort_unstable_by_key`). -/
def sortByCommitRound : List QuorumCert → List QuorumCert
  | [] => []
  | x :: xs => insertSortedQC x (sortByCommitRound xs)

/-- The loop body of `try_commit`: for each certificate in order, commit
its ledger info when its commit round exceeds the current commit root's
round (errors are logged and ignored), otherwise skip it. -/
def tryCommitLoop (o : Oracle σ) :
    List QuorumCert → BlockTree → σ → List Effect → BlockTree × σ × List Effect
  | [], t, w, tr => (t, w, tr)
  | qc :: rest, t, w, tr =>
    if t.commit_root_round < qc.commit_info.round then
      match commit o t w qc.ledger_info with
      | (_, t1, w1, trc) => tryCommitLoop o rest t1 w1 (tr ++ trc)
    else tryCommitLoop o rest t w tr

/-- `BlockStore::try_commit`: gather every QC carrying commit info, sort
ascending by commit round, and replay the commits that advance past the
commit root. -/
def tryCommit (o : Oracle σ) (t : BlockTree) (w : σ) : BlockTree × σ × List Effect :=
  let certs := sortByCommitRound t.get_all_quorum_certs_with_commit_info
  tryCommitLoop o certs t w []

/-- The block-insertion loop of `BlockStore::build`; an insertion failure
panics in the source and is modelled as an error. -/
def buildInsertBlocks (o : Oracle σ) :
    List Block → BlockTree → σ → List Effect → Except StoreErr (BlockTree × σ × List Effect)
  | [], t, w, tr => .ok (t, w, tr)
  | b :: rest, t, w, tr =>
    match execute_and_insert_block o t w b with
    | (.ok _, t1, w1, tr1) => buildInsertBlocks o rest t1 w1 (tr ++ tr1)
    | (.error e, _, _, _) => .error e

/-- The QC-insertion loop of `BlockStore::build`. -/
def buildInsertQCs (o : Oracle σ) :
    List QuorumCert → BlockTree → σ → List Effect → Except StoreErr (BlockTree × σ × List Effect)
  | [], t, w, tr => .ok (t, w, tr)
  | qc :: rest, t, w, tr =>
    match insert_single_quorum_cert o t w qc with
    | (.ok _, t1, w1, tr1) => buildInsertQCs o rest t1 w1 (tr ++ tr1)
    | (.error e, _, _, _) => .error e

/-- `BlockStore::build`: check the root QC against the root metadata
(decoupled execution allows the placeholder values), synthesize the
executed root block, create the tree, then bulk-insert the recovered
blocks and QCs. -/
def build (o : Oracle σ) (root : RootInfo) (root_metadata : RootMetadata)
    (blocks : List Block) (quorum_certs : List QuorumCert)
    (highest_timeout_cert : Option TimeoutCertificate)
    (max_pruned_blocks_in_mem : Nat) (w : σ) :
    Except StoreErr (BlockTree × σ × List Effect) :=
  if (root.root_qc.certified_block.version = 0 ∨
        root.root_qc.certified_block.version = root_metadata.version) ∧
     (root.root_qc.certified_block.executed_state_id = accumulator_placeholder_hash ∨
        root.root_qc.certified_block.executed_state_id = root_metadata.accu_hash) then
    let result : StateComputeResult :=
      { root_hash := root_metadata.accu_hash, num_leaves := root_metadata.num_leaves }
    let executed_root_block : ExecutedBlock := { block := root.root_block, compute_result := result }
    let t0 := BlockTree.new executed_root_block root.root_qc root.root_ordered_cert
      root.root_commit_li max_pruned_blocks_in_mem highest_timeout_cert
    match buildInsertBlocks o blocks t0 w [] with
    | .error e => .error e
    | .ok (t1, w1, tr1) => buildInsertQCs o quorum_certs t1 w1 tr1
  else .error .assertionFailed

/-- `BlockStore::new`: build from the recovery data, then `try_commit`. -/
def newBlockStore (o : Oracle σ) (root : RootInfo) (root_metadata : RootMetadata)
    (blocks : List Block) (quorum_certs : List QuorumCert)
    (highest_timeout_cert : Option TimeoutCertificate)
    (max_pruned_blocks_in_mem : Nat) (w : σ) :
    Except StoreErr (BlockTree × σ × List Effect) :=
  match build o root root_metadata blocks quorum_certs highest_timeout_cert
      max_pruned_blocks_in_mem w with
  | .error e => .error e
  | .ok (t, w1, tr1) =>
    match tryCommit o t w1 with
    | (t2, w2, tr2) => .ok (t2, w2, tr1 ++ tr2)

/-- `BlockStore::rebuild`: rebuild a fresh tree with the current
`max_pruned_blocks_in_mem` bound and the carried-over previous highest
TC, best-effort prune every old block id from the log, swap the tree in,
and replay commits via `try_commit`. -/
def rebuild (o : Oracle σ) (t : BlockTree) (w : σ) (root : RootInfo)
    (root_metadata : RootMetadata) (blocks : List Block) (quorum_certs : List QuorumCert) :
    Except StoreErr (BlockTree × σ × List Effect) :=
  match build o root root_metadata blocks quorum_certs t.highest_timeout_cert
      t.max_pruned_blocks_in_mem w with
  | .error e => .error e
  | .ok (tNew, w1, tr1) =>
    match o.prune_tree w1 t.get_all_block_id with
    | (pr, w2) =>
      match tryCommit o tNew w2 with
      | (t2, w3, tr2) =>
        .ok (t2, w3, tr1 ++ [.pruneTreeLog t.get_all_block_id (isOkE pr)] ++ tr2)

/-! ### Concrete fixtures used by the witnesses -/

/-- An environment in which every external call succeeds and the executor
returns a fixed result. -/
def okOracle : Oracle Unit :=
  { compute := fun w _ _ => (.ok { root_hash := 0, num_leaves := 0 }, w)
    save_tree := fun w _ _ => (.ok (), w)
    save_highest_timeout_cert := fun w _ => (.ok (), w)
    prune_tree := fun w _ => (.ok (), w)
    wait_until := fun w _ => w
    exec_commit := fun w _ _ => w }

/-- An environment in which every persistence call fails. -/
def saveFailOracle : Oracle Unit :=
  { compute := fun w _ _ => (.ok { root_hash := 0, num_leaves := 0 }, w)
    save_tree := fun w _ _ => (.error 7, w)
    save_highest_timeout_cert := fun w _ => (.error 7, w)
    prune_tree := fun w _ => (.error 7, w)
    wait_until := fun w _ => w
    exec_commit := fun w _ _ => w }

/-- A genesis-like root block with id 1 at round 0. -/
def rootBlock : Block :=
  { id := 1, epoch := 1, round := 0, parent_id := 0, timestamp_usecs := 0, payload := 0 }

def rootExecuted : ExecutedBlock :=
  { block := rootBlock, compute_result := { root_hash := 0, num_leaves := 0 } }

def rootQC : QuorumCert :=
  { certified_block := { epoch := 1, round := 0, id := 1, version := 0, executed_state_id := 0 }
    commit_info := { epoch := 1, round := 0, id := 0, version := 0, executed_state_id := 0 }
    ledger_info := { consensus_block_id := 1 } }

/-- A one-block tree rooted at `rootBlock`. -/
def t0 : BlockTree :=
  BlockTree.new rootExecuted rootQC rootQC { consensus_block_id := 1 } 10 none

/-- A child of the root at round 1. -/
def blockB1 : Block :=
  { id := 2, epoch := 1, round := 1, parent_id := 1, timestamp_usecs := 5, payload := 0 }

def executedB1 : ExecutedBlock :=
  { block := blockB1, compute_result := { root_hash := 0, num_leaves := 0 } }

/-- `t0` with `blockB1` inserted. -/
def t1 : BlockTree :=
  { t0 with blocks := (blockB1.id, executedB1) :: t0.blocks }

/-! ### Helper lemmas about the executor phase -/

/-- Every effect of the re-execution loop is an executor compute call. -/
theorem reexec_trace_compute {σ : Type} (o : Oracle σ) (w : σ) (bs : List Block) :
    ∀ e ∈ (reexec o w bs).2.2, e.isCompute = true := by
  induction bs generalizing w with
  | nil => simp [reexec]
  | cons x rest ih =>
    intro e he
    rcases hc : o.compute w x x.parent_id with ⟨r, w1⟩
    cases r with
    | ok v =>
      rw [reexec, hc] at he
      simp only [List.mem_cons] at he
      rcases he with he | he
      · subst he; rfl
      · exact ih w1 e he
    | error err =>
      rw [reexec, hc] at he
      simp only [List.mem_cons, List.not_mem_nil, or_false] at he
      subst he; rfl

/-- Every effect of the executor phase is an executor compute call. -/
theorem computePhase_trace_compute {σ : Type} (o : Oracle σ) (t : BlockTree) (w : σ)
    (b : Block) : ∀ e ∈ (computePhase o t w b).2.2, e.isCompute = true := by
  intro e he
  rcases hc : o.compute w b b.parent_id with ⟨r, w1⟩
  cases r with
  | ok v => rw [computePhase, hc] at he; simp at he; subst he; rfl
  | error err =>
    cases err with
    | blockNotFound p =>
      rw [computePhase, hc] at he
      dsimp only at he
      rcases hre : reexec o w1 (((t.path_from_ordered_root p).getD []).map (·.block)) with
        ⟨rr, w2, tr2⟩
      have htr2 : ∀ e ∈ tr2, e.isCompute = true := by
        have := reexec_trace_compute o w1 (((t.path_from_ordered_root p).getD []).map (·.block))
        rw [hre] at this; exact this
      rw [hre] at he
      cases rr with
      | ok u =>
        dsimp only at he
        rcases hc2 : o.compute w2 b b.parent_id with ⟨r2, w3⟩
        rw [hc2] at he
        cases r2 <;>
          · simp only [List.mem_cons, List.mem_append, List.not_mem_nil, or_false] at he
            rcases he with he | he | he
            · subst he; rfl
            · exact htr2 e he
            · subst he; rfl
      | error e2 =>
        simp only [List.mem_cons] at he
        rcases he with he | he
        · subst he; rfl
        · exact htr2 e he
    | internalError c => rw [computePhase, hc] at he; simp at he; subst he; rfl

/-- A successful executor phase pairs the original block with a result. -/
theorem computePhase_ok_block {σ : Type} (o : Oracle σ) (t : BlockTree) (w : σ)
    (b : Block) (eb : ExecutedBlock) (h : (computePhase o t w b).1 = .ok eb) :
    eb.block = b := by
  rcases hc : o.compute w b b.parent_id with ⟨r, w1⟩
  cases r with
  | ok v => rw [computePhase, hc] at h; simp at h; rw [← h]
  | error err =>
    cases err with
    | blockNotFound p =>
      rw [computePhase, hc] at h
      dsimp only at h
      rcases hre : reexec o w1 (((t.path_from_ordered_root p).getD []).map (·.block)) with
        ⟨rr, w2, tr2⟩
      rw [hre] at h
      cases rr with
      | ok u =>
        dsimp only at h
        rcases hc2 : o.compute w2 b b.parent_id with ⟨r2, w3⟩
        rw [hc2] at h
        cases r2 with
        | ok v2 => simp at h; rw [← h]
        | error e2 => simp at h
      | error e2 => simp at h
    | internalError c => rw [computePhase, hc] at h; simp at h

/-! ### C1: the two guards of `commit` -/

/-- Claim C1: `commit` fails with "Committed block id not found" and
leaves the tree unchanged when the finality proof names an absent block;
fails with "Committed block round lower than root" and leaves the tree
unchanged when the named block's round is not strictly above the ordered
root's; and the tree is only ever changed when both checks pass. -/
theorem c1_commit_guards {σ : Type} (o : Oracle σ) (t : BlockTree) (w : σ)
    (finality_proof : LedgerInfoWithSignatures) :
    (t.get_block finality_proof.consensus_block_id = none →
      (commit o t w finality_proof).1 = .error .commitBlockNotFound ∧
      (commit o t w finality_proof).2.1 = t) ∧
    (∀ b, t.get_block finality_proof.consensus_block_id = some b →
      b.block.round ≤ t.ordered_root_round →
      (commit o t w finality_proof).1 = .error .commitStale ∧
      (commit o t w finality_proof).2.1 = t) ∧
    ((commit o t w finality_proof).2.1 ≠ t →
      ∃ b, t.get_block finality_proof.consensus_block_id = some b ∧
        t.ordered_root_round < b.block.round) ∧
    StoreErr.message .commitBlockNotFound = "Committed block id not found" ∧
    StoreErr.message .commitStale = "Committed block round lower than root" := by
  refine ⟨?_, ?_, ?_, rfl, rfl⟩
  · intro h
    simp [commit, h]
  · intro b hb hle
    simp [commit, hb, Nat.not_lt.mpr hle]
  · intro hne
    cases hget : t.get_block finality_proof.consensus_block_id with
    | none => simp [commit, hget] at hne
    | some b =>
      by_cases hr : t.ordered_root_round < b.block.round
      · exact ⟨b, rfl, hr⟩
      · simp [commit, hget, hr] at hne

/-- Witness for C1 at a concrete input: an unknown block id. -/
theorem c1_commit_guards_witness :
    (commit okOracle t0 () { consensus_block_id := 99 }).1 = .error .commitBlockNotFound ∧
    (commit okOracle t0 () { consensus_block_id := 99 }).2.1 = t0 :=
  (c1_commit_guards okOracle t0 () { consensus_block_id := 99 }).1 (by decide)

/-! ### C4: stale blocks are rejected without side effects -/

/-- Claim C4: a block that is not already present and whose round is not
strictly above the ordered root's is rejected with the "Block with old
round" error, with no executor call, no log write, no tree change. -/
theorem c4_stale_block_rejected {σ : Type} (o : Oracle σ) (t : BlockTree) (w : σ) (b : Block)
    (habsent : t.get_block b.id = none) (hround : b.round ≤ t.ordered_root_round) :
    execute_and_insert_block o t w b = (.error .staleBlock, t, w, []) ∧
    StoreErr.message .staleBlock = "Block with old round" := by
  refine ⟨?_, rfl⟩
  simp [execute_and_insert_block, habsent, Nat.not_lt.mpr hround]

/-- Witness for C4: a fresh block at the root's round. -/
theorem c4_stale_block_rejected_witness :
    execute_and_insert_block okOracle t0 ()
      { id := 9, epoch := 1, round := 0, parent_id := 1, timestamp_usecs := 0, payload := 0 }
      = (.error .staleBlock, t0, (), []) :=
  (c4_stale_block_rejected okOracle t0 () _ (by decide) (by decide)).1

/-! ### C10: the duplicate check precedes the stale-round check -/

/-- Claim C10: when a block with the same id is already present,
`execute_and_insert_block` returns the existing handle with no effects,
even when the block's round is not above the ordered root's; a duplicate
never yields the stale-block error. -/
theorem c10_duplicate_before_stale {σ : Type} (o : Oracle σ) (t : BlockTree) (w : σ)
    (b : Block) (existing : ExecutedBlock) (h : t.get_block b.id = some existing) :
    execute_and_insert_block o t w b = (.ok existing, t, w, []) := by
  simp [execute_and_insert_block, h]

/-- Witness for C10: re-inserting the root block, whose round equals the
ordered root round (so it would otherwise be stale). -/
theorem c10_duplicate_before_stale_witness :
    rootBlock.round ≤ t0.ordered_root_round ∧
    execute_and_insert_block okOracle t0 () rootBlock = (.ok rootExecuted, t0, (), []) :=
  ⟨by decide, c10_duplicate_before_stale okOracle t0 () rootBlock rootExecuted (by decide)⟩

/-! ### C2: write-ahead logging of every tree-mutating operation -/

/-- Claim C2: each tree-mutating operation persists to the log before
mutating the in-memory tree.  For each of `execute_and_insert_block`,
`insert_single_quorum_cert` and `insert_timeout_certificate`: a failed
log write surfaces as a `saveFailed` error with the tree unchanged, and
whenever the tree changed, the operation's trace contains the successful
log write. -/
theorem c2_log_before_tree {σ : Type} (o : Oracle σ) (t : BlockTree) (w : σ) :
    (∀ (b : Block) bs qs,
      Effect.saveTree bs qs false ∈ (execute_and_insert_block o t w b).2.2.2 →
      (∃ m, (execute_and_insert_block o t w b).1 = .error (.saveFailed m)) ∧
      (execute_and_insert_block o t w b).2.1 = t) ∧
    (∀ b : Block, (execute_and_insert_block o t w b).2.1 ≠ t →
      Effect.saveTree [b] [] true ∈ (execute_and_insert_block o t w b).2.2.2) ∧
    (∀ (qc : QuorumCert) bs qs,
      Effect.saveTree bs qs false ∈ (insert_single_quorum_cert o t w qc).2.2.2 →
      (∃ m, (insert_single_quorum_cert o t w qc).1 = .error (.saveFailed m)) ∧
      (insert_single_quorum_cert o t w qc).2.1 = t) ∧
    (∀ qc : QuorumCert, (insert_single_quorum_cert o t w qc).2.1 ≠ t →
      Effect.saveTree [] [qc] true ∈ (insert_single_quorum_cert o t w qc).2.2.2) ∧
    (∀ tc : TimeoutCertificate,
      Effect.saveHighestTimeoutCert tc false ∈ (insert_timeout_certificate o t w tc).2.2.2 →
      (∃ m, (insert_timeout_certificate o t w tc).1 = .error (.saveFailed m)) ∧
      (insert_timeout_certificate o t w tc).2.1 = t) ∧
    (∀ tc : TimeoutCertificate, (insert_timeout_certificate o t w tc).2.1 ≠ t →
      Effect.saveHighestTimeoutCert tc true ∈ (insert_timeout_certificate o t w tc).2.2.2) := by
  have main : ∀ b : Block,
      (∀ bs qs, Effect.saveTree bs qs false ∈ (execute_and_insert_block o t w b).2.2.2 →
        (∃ m, (execute_and_insert_block o t w b).1 = .error (.saveFailed m)) ∧
        (execute_and_insert_block o t w b).2.1 = t) ∧
      ((execute_and_insert_block o t w b).2.1 ≠ t →
        Effect.saveTree [b] [] true ∈ (execute_and_insert_block o t w b).2.2.2) := by
    intro b
    cases hget : t.get_block b.id with
    | some ex =>
      rw [show execute_and_insert_block o t w b = (.ok ex, t, w, []) by
        simp [execute_and_insert_block, hget]]
      simp
    | none =>
      by_cases hr : t.ordered_root_round < b.round
      · rcases hcp : computePhase o t w b with ⟨r, w1, tr1⟩
        have htr1 : ∀ e ∈ tr1, e.isCompute = true := by
          have := computePhase_trace_compute o t w b
          rw [hcp] at this; exact this
        cases r with
        | error e =>
          rw [show execute_and_insert_block o t w b = (.error (.execError e), t, w1, tr1) by
            unfold execute_and_insert_block
            rw [hget, if_pos hr, hcp]]
          refine ⟨fun bs qs hmem => absurd (htr1 _ hmem) (by simp [Effect.isCompute]), ?_⟩
          simp
        | ok eb =>
          have hblk : eb.block = b := by
            apply computePhase_ok_block o t w b
            rw [hcp]
          rcases hs : o.save_tree (o.wait_until w1 eb.block.timestamp_usecs) [eb.block] []
            with ⟨rs, w3⟩
          cases rs with
          | error code =>
            rw [show execute_and_insert_block o t w b =
                (.error (.saveFailed "Insert block failed when saving block"), t, w3,
                  (tr1 ++ [.waitUntil eb.block.timestamp_usecs]) ++
                    [.saveTree [eb.block] [] false]) by
              unfold execute_and_insert_block
              rw [hget, if_pos hr, hcp]
              dsimp only
              rw [hs]]
            refine ⟨fun bs qs _ => ⟨⟨_, rfl⟩, rfl⟩, by simp⟩
          | ok u =>
            have hrest : ∀ res : Except StoreErr ExecutedBlock, ∀ t' : BlockTree,
                (∀ bs qs, Effect.saveTree bs qs false ∈
                    ((tr1 ++ [.waitUntil eb.block.timestamp_usecs]) ++
                      [.saveTree [eb.block] [] true]) →
                  (∃ m, res = .error (.saveFailed m)) ∧ t' = t) ∧
                (t' ≠ t → Effect.saveTree [b] [] true ∈
                    ((tr1 ++ [.waitUntil eb.block.timestamp_usecs]) ++
                      [.saveTree [eb.block] [] true])) := by
              intro res t'
              constructor
              · intro bs qs hmem
                simp only [List.mem_append, List.mem_singleton] at hmem
                rcases hmem with (hmem | hmem) | hmem
                · exact absurd (htr1 _ hmem) (by simp [Effect.isCompute])
                · simp at hmem
                · simp at hmem
              · intro
                rw [hblk]
                simp
            cases hins : t.insert_block eb with
            | error m =>
              rw [show execute_and_insert_block o t w b =
                  (.error (.treeInsertFailed m), t, w3,
                    (tr1 ++ [.waitUntil eb.block.timestamp_usecs]) ++
                      [.saveTree [eb.block] [] true]) by
                unfold execute_and_insert_block
                rw [hget, if_pos hr, hcp]
                dsimp only
                rw [hs, hins]]
              exact hrest (.error (.treeInsertFailed m)) t
            | ok pr =>
              rw [show execute_and_insert_block o t w b =
                  (.ok pr.1, pr.2, w3,
                    (tr1 ++ [.waitUntil eb.block.timestamp_usecs]) ++
                      [.saveTree [eb.block] [] true]) by
                unfold execute_and_insert_block
                rw [hget, if_pos hr, hcp]
                dsimp only
                rw [hs, hins]]
              exact hrest (.ok pr.1) pr.2
      · rw [show execute_and_insert_block o t w b = (.error .staleBlock, t, w, []) by
          simp [execute_and_insert_block, hget, hr]]
        simp
  have qcpart : ∀ qc : QuorumCert,
      (∀ bs qs, Effect.saveTree bs qs false ∈ (insert_single_quorum_cert o t w qc).2.2.2 →
        (∃ m, (insert_single_quorum_cert o t w qc).1 = .error (.saveFailed m)) ∧
        (insert_single_quorum_cert o t w qc).2.1 = t) ∧
      ((insert_single_quorum_cert o t w qc).2.1 ≠ t →
        Effect.saveTree [] [qc] true ∈ (insert_single_quorum_cert o t w qc).2.2.2) := by
    intro qc
    cases hget : t.get_block qc.certified_block.id with
    | none =>
      rw [show insert_single_quorum_cert o t w qc = (.error .qcBlockMissing, t, w, []) by
        simp [insert_single_quorum_cert, hget]]
      simp
    | some eb =>
      by_cases hm : matchOrderedOnly eb.block_info qc.certified_block
      · rcases hs : o.save_tree w [] [qc] with ⟨rs, w1⟩
        cases rs with
        | error code =>
          rw [show insert_single_quorum_cert o t w qc =
              (.error (.saveFailed "Insert block failed when saving quorum"), t, w1,
                [.saveTree [] [qc] false]) by
            unfold insert_single_quorum_cert
            rw [hget]
            dsimp only
            rw [if_pos hm, hs]]
          exact ⟨fun bs qs _ => ⟨⟨_, rfl⟩, rfl⟩, by simp⟩
        | ok u =>
          rw [show insert_single_quorum_cert o t w qc =
              (.ok (), t.insert_quorum_cert qc, w1, [.saveTree [] [qc] true]) by
            unfold insert_single_quorum_cert
            rw [hget]
            dsimp only
            rw [if_pos hm, hs]]
          exact ⟨fun bs qs hmem => by simp at hmem, fun _ => by simp⟩
      · rw [show insert_single_quorum_cert o t w qc = (.error .qcInconsistent, t, w, []) by
          simp [insert_single_quorum_cert, hget, hm]]
        simp
  have tcpart : ∀ tc : TimeoutCertificate,
      (Effect.saveHighestTimeoutCert tc false ∈ (insert_timeout_certificate o t w tc).2.2.2 →
        (∃ m, (insert_timeout_certificate o t w tc).1 = .error (.saveFailed m)) ∧
        (insert_timeout_certificate o t w tc).2.1 = t) ∧
      ((insert_timeout_certificate o t w tc).2.1 ≠ t →
        Effect.saveHighestTimeoutCert tc true ∈ (insert_timeout_certificate o t w tc).2.2.2) := by
    intro tc
    by_cases hle : tc.round ≤ highestTimeoutCertRound t
    · rw [show insert_timeout_certificate o t w tc = (.ok (), t, w, []) by
        simp [insert_timeout_certificate, hle]]
      simp
    · rcases hs : o.save_highest_timeout_cert w tc with ⟨rs, w1⟩
      cases rs with
      | error code =>
        rw [show insert_timeout_certificate o t w tc =
            (.error (.saveFailed "Timeout certificate insert failed when persisting to DB"),
              t, w1, [.saveHighestTimeoutCert tc false]) by
          unfold insert_timeout_certificate
          rw [if_neg hle, hs]]
        exact ⟨fun _ => ⟨⟨_, rfl⟩, rfl⟩, by simp⟩
      | ok u =>
        rw [show insert_timeout_certificate o t w tc =
            (.ok (), t.replace_timeout_cert tc, w1, [.saveHighestTimeoutCert tc true]) by
          unfold insert_timeout_certificate
          rw [if_neg hle, hs]]
        exact ⟨fun hmem => by simp at hmem, fun _ => by simp⟩
  exact ⟨fun b => (main b).1, fun b => (main b).2, fun qc => (qcpart qc).1,
    fun qc => (qcpart qc).2, fun tc => (tcpart tc).1, fun tc => (tcpart tc).2⟩

/-- Witness for C2: with a failing log, inserting a fresh block at round 1
surfaces the save failure and leaves the tree unchanged. -/
theorem c2_log_before_tree_witness :
    (∃ m, (execute_and_insert_block saveFailOracle t0 () blockB1).1 = .error (.saveFailed m)) ∧
    (execute_and_insert_block saveFailOracle t0 () blockB1).2.1 = t0 :=
  (c2_log_before_tree saveFailOracle t0 ()).1 blockB1 [blockB1] [] (by decide)

/-! ### C3: `execute_and_insert_block` is idempotent -/

/-- After a successful `execute_and_insert_block`, the block id resolves
to the returned handle. -/
theorem execute_and_insert_block_get {σ : Type} (o : Oracle σ) (t : BlockTree) (w : σ)
    (b : Block) (eb : ExecutedBlock) (h : (execute_and_insert_block o t w b).1 = .ok eb) :
    ((execute_and_insert_block o t w b).2.1).get_block b.id = some eb := by
  cases hget : t.get_block b.id with
  | some ex =>
    rw [show execute_and_insert_block o t w b = (.ok ex, t, w, []) by
      simp [execute_and_insert_block, hget]] at h ⊢
    simp at h
    simp [hget, h]
  | none =>
    by_cases hr : t.ordered_root_round < b.round
    · rcases hcp : computePhase o t w b with ⟨r, w1, tr1⟩
      cases r with
      | error e =>
        rw [show execute_and_insert_block o t w b = (.error (.execError e), t, w1, tr1) by
          unfold execute_and_insert_block
          rw [hget, if_pos hr, hcp]] at h
        simp at h
      | ok ebc =>
        have hblk : ebc.block = b := by
          apply computePhase_ok_block o t w b
          rw [hcp]
        rcases hs : o.save_tree (o.wait_until w1 ebc.block.timestamp_usecs) [ebc.block] []
          with ⟨rs, w3⟩
        cases rs with
        | error code =>
          rw [show execute_and_insert_block o t w b =
              (.error (.saveFailed "Insert block failed when saving block"), t, w3,
                (tr1 ++ [.waitUntil ebc.block.timestamp_usecs]) ++
                  [.saveTree [ebc.block] [] false]) by
            unfold execute_and_insert_block
            rw [hget, if_pos hr, hcp]
            dsimp only
            rw [hs]] at h
          simp at h
        | ok u =>
          have hinsget : t.get_block ebc.block.id = none := by rw [hblk]; exact hget
          cases hpar : t.get_block ebc.block.parent_id with
          | none =>
            have hins : t.insert_block ebc = .error "parent block not found" := by
              unfold BlockTree.insert_block
              rw [hinsget, hpar]
            rw [show execute_and_insert_block o t w b =
                (.error (.treeInsertFailed "parent block not found"), t, w3,
                  (tr1 ++ [.waitUntil ebc.block.timestamp_usecs]) ++
                    [.saveTree [ebc.block] [] true]) by
              unfold execute_and_insert_block
              rw [hget, if_pos hr, hcp]
              dsimp only
              rw [hs, hins]] at h
            simp at h
          | some parent =>
            by_cases hpr : parent.block.round < ebc.block.round
            · have hins : t.insert_block ebc =
                  .ok (ebc, { t with blocks := (ebc.block.id, ebc) :: t.blocks }) := by
                unfold BlockTree.insert_block
                rw [hinsget, hpar]
                dsimp only
                rw [if_pos hpr]
              rw [show execute_and_insert_block o t w b =
                  (.ok ebc, { t with blocks := (ebc.block.id, ebc) :: t.blocks }, w3,
                    (tr1 ++ [.waitUntil ebc.block.timestamp_usecs]) ++
                      [.saveTree [ebc.block] [] true]) by
                unfold execute_and_insert_block
                rw [hget, if_pos hr, hcp]
                dsimp only
                rw [hs, hins]] at h ⊢
              simp at h
              subst h
              simp [BlockTree.get_block, lookupId, hblk]
            · have hins : t.insert_block ebc =
                  .error "block round not greater than parent round" := by
                unfold BlockTree.insert_block
                rw [hinsget, hpar]
                dsimp only
                rw [if_neg hpr]
              rw [show execute_and_insert_block o t w b =
                  (.error (.treeInsertFailed "block round not greater than parent round"),
                    t, w3,
                    (tr1 ++ [.waitUntil ebc.block.timestamp_usecs]) ++
                      [.saveTree [ebc.block] [] true]) by
                unfold execute_and_insert_block
                rw [hget, if_pos hr, hcp]
                dsimp only
                rw [hs, hins]] at h
              simp at h
    · rw [show execute_and_insert_block o t w b = (.error .staleBlock, t, w, []) by
        simp [execute_and_insert_block, hget, hr]] at h
      simp at h

/-- Claim C3: `execute_and_insert_block` is idempotent.  If a call
returned the handle `eb`, a second call on the resulting tree — under any
environment — returns the same handle, leaves the tree unchanged, and
performs no side effects (empty effect trace, oracle state untouched). -/
theorem c3_insert_idempotent {σ σ₂ : Type} (o : Oracle σ) (o₂ : Oracle σ₂)
    (t : BlockTree) (w : σ) (w₂ : σ₂) (b : Block) (eb : ExecutedBlock)
    (h : (execute_and_insert_block o t w b).1 = .ok eb) :
    execute_and_insert_block o₂ (execute_and_insert_block o t w b).2.1 w₂ b =
      (.ok eb, (execute_and_insert_block o t w b).2.1, w₂, []) := by
  have hg := execute_and_insert_block_get o t w b eb h
  generalize ht' : (execute_and_insert_block o t w b).2.1 = t' at hg ⊢
  simp [execute_and_insert_block, hg]

/-- Witness for C3: inserting `blockB1` into the one-block tree succeeds,
and re-inserting it is a pure read. -/
theorem c3_insert_idempotent_witness :
    execute_and_insert_block okOracle
      (execute_and_insert_block okOracle t0 () blockB1).2.1 () blockB1 =
    (.ok executedB1, (execute_and_insert_block okOracle t0 () blockB1).2.1, (), []) :=
  c3_insert_idempotent okOracle okOracle t0 () () blockB1 executedB1 (by rfl)

/-! ### C7: timeout-certificate insertion is monotone -/

/-- Claim C7: `insert_timeout_certificate` returns `Ok` with no log write
and no tree change when the TC's round does not exceed the current one;
when it does and persistence succeeds, the TC is persisted first and then
installed, after which `highest_timeout_cert` returns it. -/
theorem c7_timeout_monotone {σ : Type} (o : Oracle σ) (t : BlockTree) (w : σ)
    (tc : TimeoutCertificate) :
    (tc.round ≤ highestTimeoutCertRound t →
      insert_timeout_certificate o t w tc = (.ok (), t, w, [])) ∧
    (highestTimeoutCertRound t < tc.round →
      (o.save_highest_timeout_cert w tc).1 = .ok () →
      insert_timeout_certificate o t w tc =
        (.ok (), t.replace_timeout_cert tc, (o.save_highest_timeout_cert w tc).2,
          [.saveHighestTimeoutCert tc true]) ∧
      (insert_timeout_certificate o t w tc).2.1.highest_timeout_cert = some tc) := by
  constructor
  · intro h
    simp [insert_timeout_certificate, h]
  · intro hlt hok
    rcases hsp : o.save_highest_timeout_cert w tc with ⟨r, w2⟩
    rw [hsp] at hok
    subst hok
    have heq : insert_timeout_certificate o t w tc =
        (.ok (), t.replace_timeout_cert tc, (o.save_highest_timeout_cert w tc).2,
          [.saveHighestTimeoutCert tc true]) := by
      unfold insert_timeout_certificate
      rw [if_neg (Nat.not_le.mpr hlt), hsp]
    rw [hsp] at heq
    exact ⟨heq, by rw [heq]; rfl⟩

/-- Witness for C7: a TC at round 7, inserted into a tree holding a TC at
round 7 (no-op case of the theorem). -/
theorem c7_timeout_monotone_witness :
    insert_timeout_certificate okOracle (t0.replace_timeout_cert { round := 7 }) ()
      { round := 7 } = (.ok (), t0.replace_timeout_cert { round := 7 }, (), []) :=
  (c7_timeout_monotone okOracle (t0.replace_timeout_cert { round := 7 }) ()
    { round := 7 }).1 (by decide)

/-! ### C5: the replay loop `try_commit` -/

/-- Ascending order on the commit round carried by a QC. -/
def qcCommitLE (a b : QuorumCert) : Prop :=
  a.commit_info.round ≤ b.commit_info.round

theorem insertSortedQC_perm (qc : QuorumCert) (l : List QuorumCert) :
    (insertSortedQC qc l).Perm (qc :: l) := by
  induction l with
  | nil => exact List.Perm.refl _
  | cons x xs ih =>
    by_cases h : qc.commit_info.round ≤ x.commit_info.round
    · rw [insertSortedQC, if_pos h]
    · rw [insertSortedQC, if_neg h]
      exact (ih.cons x).trans (List.Perm.swap qc x xs)

theorem sortByCommitRound_perm (l : List QuorumCert) :
    (sortByCommitRound l).Perm l := by
  induction l with
  | nil => exact List.Perm.refl _
  | cons x xs ih =>
    exact (insertSortedQC_perm x (sortByCommitRound xs)).trans (ih.cons x)

theorem insertSortedQC_pairwise (qc : QuorumCert) (l : List QuorumCert)
    (h : List.Pairwise qcCommitLE l) : List.Pairwise qcCommitLE (insertSortedQC qc l) := by
  induction l with
  | nil => simp [insertSortedQC, List.pairwise_singleton]
  | cons x xs ih =>
    by_cases hle : qc.commit_info.round ≤ x.commit_info.round
    · rw [insertSortedQC, if_pos hle]
      refine List.Pairwise.cons ?_ h
      intro b hb
      rcases List.mem_cons.1 hb with rfl | hb
      · exact hle
      · exact le_trans hle (List.rel_of_pairwise_cons h hb)
    · rw [insertSortedQC, if_neg hle]
      refine List.Pairwise.cons ?_ (ih h.tail)
      intro b hb
      have hb' := (insertSortedQC_perm qc xs).mem_iff.1 hb
      rcases List.mem_cons.1 hb' with rfl | hb'
      · exact le_of_lt (Nat.lt_of_not_le hle)
      · exact List.rel_of_pairwise_cons h hb'

theorem sortByCommitRound_pairwise (l : List QuorumCert) :
    List.Pairwise qcCommitLE (sortByCommitRound l) := by
  induction l with
  | nil => exact List.Pairwise.nil
  | cons x xs ih => exact insertSortedQC_pairwise x (sortByCommitRound xs) ih

/-- Claim C5: `try_commit` collects exactly the QCs carrying commit info,
sorts them ascending by commit round (a sorted permutation), and folds
over them: a certificate whose commit round does not exceed the current
commit root's round is skipped with no state change and no effects, while
one that does invokes `commit` on its ledger info, threading the state. -/
theorem c5_try_commit {σ : Type} (o : Oracle σ) (t : BlockTree) (w : σ) :
    (t.get_all_quorum_certs_with_commit_info =
      (t.id_to_quorum_cert.map Prod.snd).filter (fun qc => qc.commit_info.round ≠ 0)) ∧
    (sortByCommitRound t.get_all_quorum_certs_with_commit_info).Perm
      t.get_all_quorum_certs_with_commit_info ∧
    List.Pairwise qcCommitLE (sortByCommitRound t.get_all_quorum_certs_with_commit_info) ∧
    tryCommit o t w =
      tryCommitLoop o (sortByCommitRound t.get_all_quorum_certs_with_commit_info) t w [] ∧
    (∀ (qc : QuorumCert) (rest : List QuorumCert) (t' : BlockTree) (w' : σ) (tr : List Effect),
      qc.commit_info.round ≤ t'.commit_root_round →
      tryCommitLoop o (qc :: rest) t' w' tr = tryCommitLoop o rest t' w' tr) ∧
    (∀ (qc : QuorumCert) (rest : List QuorumCert) (t' : BlockTree) (w' : σ) (tr : List Effect),
      t'.commit_root_round < qc.commit_info.round →
      tryCommitLoop o (qc :: rest) t' w' tr =
        tryCommitLoop o rest (commit o t' w' qc.ledger_info).2.1
          (commit o t' w' qc.ledger_info).2.2.1
          (tr ++ (commit o t' w' qc.ledger_info).2.2.2)) := by
  refine ⟨rfl, sortByCommitRound_perm _, sortByCommitRound_pairwise _, rfl, ?_, ?_⟩
  · intro qc rest t' w' tr h
    rw [tryCommitLoop, if_neg (Nat.not_lt.mpr h)]
  · intro qc rest t' w' tr h
    rcases hc : commit o t' w' qc.ledger_info with ⟨r, t1, w1, trc⟩
    rw [tryCommitLoop, if_pos h, hc]

/-- Witness for C5: the skip equation at a concrete QC whose commit round
does not exceed the commit root's. -/
theorem c5_try_commit_witness :
    tryCommitLoop okOracle [rootQC] t0 () [] = tryCommitLoop okOracle [] t0 () [] :=
  (c5_try_commit okOracle t0 ()).2.2.2.2.1 rootQC [] t0 () [] (by decide)

/-! ### C6: `BlockNotFound` recovery in `execute_and_insert_block` -/

/-- When the re-execution loop succeeds, it computed every block of the
chain in order. -/
theorem reexec_ok_trace {σ : Type} (o : Oracle σ) (w : σ) (bs : List Block)
    (h : (reexec o w bs).1 = .ok ()) :
    (reexec o w bs).2.2 = bs.map (fun x => Effect.compute x x.parent_id) := by
  induction bs generalizing w with
  | nil => simp [reexec]
  | cons x rest ih =>
    rcases hc : o.compute w x x.parent_id with ⟨r, w1⟩
    cases r with
    | ok v =>
      rw [reexec, hc] at h ⊢
      dsimp only at h ⊢
      rcases hrest : reexec o w1 rest with ⟨rr, w2, tr⟩
      rw [hrest] at h
      have hrec := ih w1
      rw [hrest] at hrec
      rw [List.map_cons, hrec h]
    | error e => rw [reexec, hc] at h; simp at h

/-- When the re-execution loop fails, it computed the chain prefix up to
and including the failing block, then stopped. -/
theorem reexec_error_trace {σ : Type} (o : Oracle σ) (w : σ) (bs : List Block)
    (e : ExecError) (h : (reexec o w bs).1 = .error e) :
    ∃ pre x suf, bs = pre ++ x :: suf ∧
      (reexec o w bs).2.2 = (pre ++ [x]).map (fun y => Effect.compute y y.parent_id) := by
  induction bs generalizing w with
  | nil => rw [reexec] at h; simp at h
  | cons x rest ih =>
    rcases hc : o.compute w x x.parent_id with ⟨r, w1⟩
    cases r with
    | ok v =>
      rw [reexec, hc] at h ⊢
      dsimp only at h ⊢
      rcases hrest : reexec o w1 rest with ⟨rr, w2, tr⟩
      rw [hrest] at h
      have hrec := ih w1
      rw [hrest] at hrec
      rcases hrec h with ⟨pre, y, suf, hbs, htr⟩
      exact ⟨x :: pre, y, suf, by simp [hbs], by rw [htr]; simp⟩
    | error e2 =>
      rw [reexec, hc] at h ⊢
      simp only [Except.error.injEq] at h
      exact ⟨[], x, rest, rfl, by simp⟩

/-- A compute-effect list passes through the compute filter unchanged. -/
theorem filter_compute_map (bs : List Block) :
    (bs.map (fun x => Effect.compute x x.parent_id)).filter Effect.isCompute =
      bs.map (fun x => Effect.compute x x.parent_id) := by
  refine List.filter_eq_self.mpr ?_
  intro e he
  rcases List.mem_map.1 he with ⟨x, _, rfl⟩
  rfl

/-- The compute calls of `execute_and_insert_block` are exactly those of
its executor phase: the clock wait, the log write and the tree insertion
perform no compute. -/
theorem eaib_filter_computes {σ : Type} (o : Oracle σ) (t : BlockTree) (w : σ)
    (b : Block) (habsent : t.get_block b.id = none)
    (hround : t.ordered_root_round < b.round) (r : Except ExecError ExecutedBlock)
    (w1 : σ) (tr1 : List Effect) (hcp : computePhase o t w b = (r, w1, tr1)) :
    (execute_and_insert_block o t w b).2.2.2.filter Effect.isCompute =
      tr1.filter Effect.isCompute := by
  cases r with
  | error e =>
    rw [show (execute_and_insert_block o t w b).2.2.2 = tr1 by
      unfold execute_and_insert_block
      rw [habsent, if_pos hround, hcp]]
  | ok eb =>
    rcases hs : o.save_tree (o.wait_until w1 eb.block.timestamp_usecs) [eb.block] []
      with ⟨rs, w3⟩
    have hshape : ∃ tl : List Effect,
        (execute_and_insert_block o t w b).2.2.2 =
          (tr1 ++ [Effect.waitUntil eb.block.timestamp_usecs]) ++ tl ∧
        tl.filter Effect.isCompute = [] := by
      cases rs with
      | error code =>
        refine ⟨[Effect.saveTree [eb.block] [] false], ?_, rfl⟩
        unfold execute_and_insert_block
        rw [habsent, if_pos hround, hcp]
        dsimp only
        rw [hs]
      | ok u =>
        refine ⟨[Effect.saveTree [eb.block] [] true], ?_, rfl⟩
        unfold execute_and_insert_block
        rw [habsent, if_pos hround, hcp]
        dsimp only
        rw [hs]
        dsimp only
        rcases t.insert_block eb with m | ⟨handle, tnew⟩ <;> rfl
    rcases hshape with ⟨tl, htl, htlf⟩
    rw [htl]
    simp [List.filter_append, htlf, Effect.isCompute]

/-- Claim C6: when the executor reports `BlockNotFound(parent)`, the store
re-executes exactly the blocks on the path from the ordered root to the
parent, in order, then retries the original block (compute-effect trace
`b :: chain ++ [b]`); an error during re-execution propagates with the
tree unchanged; any executor error other than `BlockNotFound` propagates
immediately, with a single compute call and the tree unchanged. -/
theorem c6_block_not_found_recovery {σ : Type} (o : Oracle σ) (t : BlockTree) (w : σ)
    (b : Block) (habsent : t.get_block b.id = none)
    (hround : t.ordered_root_round < b.round) :
    (∀ c w1, o.compute w b b.parent_id = (.error (.internalError c), w1) →
      execute_and_insert_block o t w b =
        (.error (.execError (.internalError c)), t, w1, [.compute b b.parent_id])) ∧
    (∀ p w1, o.compute w b b.parent_id = (.error (.blockNotFound p), w1) →
      (∀ w2 tr2,
        reexec o w1 (((t.path_from_ordered_root p).getD []).map (·.block)) =
          (.ok (), w2, tr2) →
        (execute_and_insert_block o t w b).2.2.2.filter Effect.isCompute =
          Effect.compute b b.parent_id ::
            ((((t.path_from_ordered_root p).getD []).map (·.block)).map
              (fun x => Effect.compute x x.parent_id) ++ [Effect.compute b b.parent_id])) ∧
      (∀ e w2 tr2,
        reexec o w1 (((t.path_from_ordered_root p).getD []).map (·.block)) =
          (.error e, w2, tr2) →
        execute_and_insert_block o t w b =
          (.error (.execError e), t, w2, Effect.compute b b.parent_id :: tr2))) := by
  constructor
  · intro c w1 hc
    have hcp : computePhase o t w b =
        (.error (.internalError c), w1, [.compute b b.parent_id]) := by
      rw [computePhase, hc]
    unfold execute_and_insert_block
    rw [habsent, if_pos hround, hcp]
  · intro p w1 hc
    constructor
    · intro w2 tr2 hre
      have htr2 : tr2 = (((t.path_from_ordered_root p).getD []).map (·.block)).map
          (fun x => Effect.compute x x.parent_id) := by
        have hh := reexec_ok_trace o w1 (((t.path_from_ordered_root p).getD []).map (·.block))
        rw [hre] at hh
        exact hh rfl
      rcases hc2 : o.compute w2 b b.parent_id with ⟨r2, w3⟩
      cases r2 with
      | ok res =>
        have hcp : computePhase o t w b =
            (.ok (⟨b, res⟩ : ExecutedBlock), w3,
              Effect.compute b b.parent_id :: (tr2 ++ [Effect.compute b b.parent_id])) := by
          rw [computePhase, hc]
          dsimp only
          rw [hre]
          dsimp only
          rw [hc2]
        rw [eaib_filter_computes o t w b habsent hround _ _ _ hcp]
        subst htr2
        simp [List.filter_append, filter_compute_map, Effect.isCompute]
      | error e2 =>
        have hcp : computePhase o t w b =
            (.error e2, w3,
              Effect.compute b b.parent_id :: (tr2 ++ [Effect.compute b b.parent_id])) := by
          rw [computePhase, hc]
          dsimp only
          rw [hre]
          dsimp only
          rw [hc2]
        rw [eaib_filter_computes o t w b habsent hround _ _ _ hcp]
        subst htr2
        simp [List.filter_append, filter_compute_map, Effect.isCompute]
    · intro e w2 tr2 hre
      have hcp : computePhase o t w b =
          (.error e, w2, Effect.compute b b.parent_id :: tr2) := by
        rw [computePhase, hc]
        dsimp only
        rw [hre]
      unfold execute_and_insert_block
      rw [habsent, if_pos hround, hcp]

/-- A stateful environment for the C6 witness: the executor reports
`BlockNotFound` of the root on its first call and succeeds afterwards. -/
def recoveryOracle : Oracle Nat :=
  { compute := fun w _ _ =>
      if w = 0 then (.error (.blockNotFound 1), 1)
      else (.ok { root_hash := 0, num_leaves := 0 }, w + 1)
    save_tree := fun w _ _ => (.ok (), w)
    save_highest_timeout_cert := fun w _ => (.ok (), w)
    prune_tree := fun w _ => (.ok (), w)
    wait_until := fun w _ => w
    exec_commit := fun w _ _ => w }

/-- Witness for C6: the first compute reports `BlockNotFound` of the root
(empty recovery chain), and the compute trace is the original block twice. -/
theorem c6_block_not_found_recovery_witness :
    (execute_and_insert_block recoveryOracle t0 0 blockB1).2.2.2.filter Effect.isCompute =
      Effect.compute blockB1 blockB1.parent_id ::
        ((((t0.path_from_ordered_root 1).getD []).map (·.block)).map
          (fun x => Effect.compute x x.parent_id) ++
            [Effect.compute blockB1 blockB1.parent_id]) :=
  ((c6_block_not_found_recovery recoveryOracle t0 0 blockB1 (by decide) (by decide)).2
    1 1 (by rfl)).1 1 [] (by rfl)

/-! ### Shape lemmas for the tree transitions -/

/-- A successful `insert_block` either found a duplicate (tree unchanged)
or recorded the block under its id, with the parent present at a strictly
smaller round. -/
theorem insert_block_cases (t : BlockTree) (eb h : ExecutedBlock) (tnew : BlockTree)
    (hins : t.insert_block eb = .ok (h, tnew)) :
    (h = eb ∧ tnew = { t with blocks := (eb.block.id, eb) :: t.blocks } ∧
      t.get_block eb.block.id = none ∧
      ∃ parent, t.get_block eb.block.parent_id = some parent ∧
        parent.block.round < eb.block.round) ∨
    (tnew = t ∧ t.get_block eb.block.id = some h) := by
  unfold BlockTree.insert_block at hins
  cases hget : t.get_block eb.block.id with
  | some existing =>
    rw [hget] at hins
    simp only [Except.ok.injEq, Prod.mk.injEq] at hins
    exact Or.inr ⟨hins.2.symm, by rw [hins.1]⟩
  | none =>
    rw [hget] at hins
    cases hpar : t.get_block eb.block.parent_id with
    | none => rw [hpar] at hins; simp at hins
    | some parent =>
      rw [hpar] at hins
      dsimp only at hins
      by_cases hpr : parent.block.round < eb.block.round
      · rw [if_pos hpr] at hins
        simp only [Except.ok.injEq, Prod.mk.injEq] at hins
        exact Or.inl ⟨hins.1.symm, hins.2.symm, rfl, parent, rfl, hpr⟩
      · rw [if_neg hpr] at hins
        simp at hins

/-- The tree after `execute_and_insert_block` is either unchanged or has
exactly one new entry: the executed form of the argument block, whose id
was fresh, whose round exceeds the ordered root's, and whose parent is
present at a strictly smaller round. -/
theorem eaib_tree_cases {σ : Type} (o : Oracle σ) (t : BlockTree) (w : σ) (b : Block) :
    (execute_and_insert_block o t w b).2.1 = t ∨
    ∃ eb : ExecutedBlock, eb.block = b ∧ t.get_block b.id = none ∧
      t.ordered_root_round < b.round ∧
      (∃ parent, t.get_block b.parent_id = some parent ∧ parent.block.round < b.round) ∧
      (execute_and_insert_block o t w b).2.1 =
        { t with blocks := (b.id, eb) :: t.blocks } := by
  cases hget : t.get_block b.id with
  | some ex =>
    left
    rw [show execute_and_insert_block o t w b = (.ok ex, t, w, []) by
      simp [execute_and_insert_block, hget]]
  | none =>
    by_cases hr : t.ordered_root_round < b.round
    · rcases hcp : computePhase o t w b with ⟨r, w1, tr1⟩
      cases r with
      | error e =>
        left
        rw [show execute_and_insert_block o t w b = (.error (.execError e), t, w1, tr1) by
          unfold execute_and_insert_block
          rw [hget, if_pos hr, hcp]]
      | ok ebc =>
        have hblk : ebc.block = b := by
          apply computePhase_ok_block o t w b
          rw [hcp]
        rcases hs : o.save_tree (o.wait_until w1 ebc.block.timestamp_usecs) [ebc.block] []
          with ⟨rs, w3⟩
        cases rs with
        | error code =>
          left
          rw [show (execute_and_insert_block o t w b).2.1 = t by
            unfold execute_and_insert_block
            rw [hget, if_pos hr, hcp]
            dsimp only
            rw [hs]]
        | ok u =>
          cases hins : t.insert_block ebc with
          | error m =>
            left
            rw [show (execute_and_insert_block o t w b).2.1 = t by
              unfold execute_and_insert_block
              rw [hget, if_pos hr, hcp]
              dsimp only
              rw [hs]
              dsimp only
              rw [hins]]
          | ok pr =>
            have hres : (execute_and_insert_block o t w b).2.1 = pr.2 := by
              unfold execute_and_insert_block
              rw [hget, if_pos hr, hcp]
              dsimp only
              rw [hs]
              dsimp only
              rw [hins]
            rcases insert_block_cases t ebc pr.1 pr.2 (by rw [hins]) with
              ⟨_, htnew, _, parent, hpar, hround⟩ | ⟨htnew, hdup⟩
            · right
              refine ⟨ebc, hblk, rfl, hr, ⟨parent, ?_, ?_⟩, ?_⟩
              · rw [← hblk]; exact hpar
              · rw [← hblk]; exact hround
              · rw [hres, htnew, hblk]
            · rw [hblk] at hdup
              rw [hget] at hdup
              cases hdup
    · left
      rw [show execute_and_insert_block o t w b = (.error .staleBlock, t, w, []) by
        simp [execute_and_insert_block, hget, hr]]

/-- The tree after `insert_single_quorum_cert` is unchanged apart from
possibly installing the QC into the certificate map. -/
theorem isqc_tree_cases {σ : Type} (o : Oracle σ) (t : BlockTree) (w : σ) (qc : QuorumCert) :
    (insert_single_quorum_cert o t w qc).2.1 = t ∨
    (insert_single_quorum_cert o t w qc).2.1 = t.insert_quorum_cert qc := by
  cases hget : t.get_block qc.certified_block.id with
  | none =>
    left
    rw [show insert_single_quorum_cert o t w qc = (.error .qcBlockMissing, t, w, []) by
      simp [insert_single_quorum_cert, hget]]
  | some eb =>
    by_cases hm : matchOrderedOnly eb.block_info qc.certified_block
    · rcases hs : o.save_tree w [] [qc] with ⟨rs, w1⟩
      cases rs with
      | error code =>
        left
        rw [show (insert_single_quorum_cert o t w qc).2.1 = t by
          unfold insert_single_quorum_cert
          rw [hget]
          dsimp only
          rw [if_pos hm, hs]]
      | ok u =>
        right
        rw [show (insert_single_quorum_cert o t w qc).2.1 = t.insert_quorum_cert qc by
          unfold insert_single_quorum_cert
          rw [hget]
          dsimp only
          rw [if_pos hm, hs]]
    · left
      rw [show insert_single_quorum_cert o t w qc = (.error .qcInconsistent, t, w, []) by
        simp [insert_single_quorum_cert, hget, hm]]

/-- The tree after `commit` is either unchanged or the result of the
ordered-root advance, ledger-info update and prune against a present
target block above the ordered root. -/
theorem commit_tree_cases {σ : Type} (o : Oracle σ) (t : BlockTree) (w : σ)
    (finality_proof : LedgerInfoWithSignatures) :
    (commit o t w finality_proof).2.1 = t ∨
    ∃ bc, t.get_block finality_proof.consensus_block_id = some bc ∧
      t.ordered_root_round < bc.block.round ∧
      (commit o t w finality_proof).2.1 =
        (((t.update_ordered_root_id bc.block.id).update_highest_ledger_info
            finality_proof).update_commit_id_and_process_pruned_blocks bc.block.id
          (((t.update_ordered_root_id bc.block.id).update_highest_ledger_info
            finality_proof).find_blocks_to_prune bc.block.id)) := by
  cases hget : t.get_block finality_proof.consensus_block_id with
  | none =>
    left
    rw [show commit o t w finality_proof = (.error .commitBlockNotFound, t, w, []) by
      simp [commit, hget]]
  | some bc =>
    by_cases hr : t.ordered_root_round < bc.block.round
    · by_cases hemp : ((t.path_from_ordered_root finality_proof.consensus_block_id).getD
        []).isEmpty
      · left
        rw [show commit o t w finality_proof = (.error .assertionFailed, t, w, []) by
          unfold commit
          dsimp only
          rw [hget]
          dsimp only
          rw [if_pos hr, if_pos hemp]]
      · right
        refine ⟨bc, rfl, hr, ?_⟩
        unfold commit
        dsimp only
        rw [hget]
        dsimp only
        rw [if_pos hr, if_neg hemp]
    · left
      rw [show commit o t w finality_proof = (.error .commitStale, t, w, []) by
        simp [commit, hget, hr]]

/-! ### C8: `rebuild` carries the TC and the prune bound unconditionally -/

/-- The configuration fields preserved by every operation of the build
and replay paths. -/
def sameConfig (a b : BlockTree) : Prop :=
  a.highest_timeout_cert = b.highest_timeout_cert ∧
  a.max_pruned_blocks_in_mem = b.max_pruned_blocks_in_mem

theorem sameConfig_refl (a : BlockTree) : sameConfig a a := ⟨rfl, rfl⟩

theorem sameConfig_trans {a b c : BlockTree} (h1 : sameConfig a b) (h2 : sameConfig b c) :
    sameConfig a c := ⟨h1.1.trans h2.1, h1.2.trans h2.2⟩

theorem eaib_sameConfig {σ : Type} (o : Oracle σ) (t : BlockTree) (w : σ) (b : Block) :
    sameConfig (execute_and_insert_block o t w b).2.1 t := by
  rcases eaib_tree_cases o t w b with h | ⟨eb, _, _, _, _, h⟩ <;> rw [h]
  · exact sameConfig_refl t
  · exact ⟨rfl, rfl⟩

theorem isqc_sameConfig {σ : Type} (o : Oracle σ) (t : BlockTree) (w : σ) (qc : QuorumCert) :
    sameConfig (insert_single_quorum_cert o t w qc).2.1 t := by
  rcases isqc_tree_cases o t w qc with h | h <;> rw [h]
  · exact sameConfig_refl t
  · unfold BlockTree.insert_quorum_cert
    by_cases hq : (lookupId t.id_to_quorum_cert qc.certified_block.id).isSome
    · rw [if_pos hq]; exact sameConfig_refl t
    · rw [if_neg hq]; exact ⟨rfl, rfl⟩

theorem commit_sameConfig {σ : Type} (o : Oracle σ) (t : BlockTree) (w : σ)
    (finality_proof : LedgerInfoWithSignatures) :
    sameConfig (commit o t w finality_proof).2.1 t := by
  rcases commit_tree_cases o t w finality_proof with h | ⟨bc, _, _, h⟩ <;> rw [h]
  · exact sameConfig_refl t
  · exact ⟨rfl, rfl⟩

theorem tryCommitLoop_sameConfig {σ : Type} (o : Oracle σ) (certs : List QuorumCert)
    (t : BlockTree) (w : σ) (tr : List Effect) :
    sameConfig (tryCommitLoop o certs t w tr).1 t := by
  induction certs generalizing t w tr with
  | nil => exact sameConfig_refl t
  | cons qc rest ih =>
    by_cases h : t.commit_root_round < qc.commit_info.round
    · rcases hc : commit o t w qc.ledger_info with ⟨r, t1, w1, trc⟩
      rw [tryCommitLoop, if_pos h, hc]
      refine sameConfig_trans (ih t1 w1 (tr ++ trc)) ?_
      have := commit_sameConfig o t w qc.ledger_info
      rw [hc] at this
      exact this
    · rw [tryCommitLoop, if_neg h]
      exact ih t w tr

theorem buildInsertBlocks_sameConfig {σ : Type} (o : Oracle σ) (blocks : List Block)
    (t : BlockTree) (w : σ) (tr : List Effect) (t1 : BlockTree) (w1 : σ) (tr1 : List Effect)
    (h : buildInsertBlocks o blocks t w tr = .ok (t1, w1, tr1)) :
    sameConfig t1 t := by
  induction blocks generalizing t w tr with
  | nil =>
    rw [buildInsertBlocks] at h
    simp only [Except.ok.injEq, Prod.mk.injEq] at h
    rw [← h.1]
    exact sameConfig_refl t
  | cons b rest ih =>
    rw [buildInsertBlocks] at h
    rcases he : execute_and_insert_block o t w b with ⟨r, t2, w2, tr2⟩
    rw [he] at h
    cases r with
    | error e => simp at h
    | ok eb =>
      dsimp only at h
      refine sameConfig_trans (ih t2 w2 (tr ++ tr2) h) ?_
      have := eaib_sameConfig o t w b
      rw [he] at this
      exact this

theorem buildInsertQCs_sameConfig {σ : Type} (o : Oracle σ) (qcs : List QuorumCert)
    (t : BlockTree) (w : σ) (tr : List Effect) (t1 : BlockTree) (w1 : σ) (tr1 : List Effect)
    (h : buildInsertQCs o qcs t w tr = .ok (t1, w1, tr1)) :
    sameConfig t1 t := by
  induction qcs generalizing t w tr with
  | nil =>
    rw [buildInsertQCs] at h
    simp only [Except.ok.injEq, Prod.mk.injEq] at h
    rw [← h.1]
    exact sameConfig_refl t
  | cons qc rest ih =>
    rw [buildInsertQCs] at h
    rcases he : insert_single_quorum_cert o t w qc with ⟨r, t2, w2, tr2⟩
    rw [he] at h
    cases r with
    | error e => simp at h
    | ok u =>
      dsimp only at h
      refine sameConfig_trans (ih t2 w2 (tr ++ tr2) h) ?_
      have := isqc_sameConfig o t w qc
      rw [he] at this
      exact this

/-- A successful `build` yields a tree carrying exactly the supplied TC
and prune bound. -/
theorem build_config {σ : Type} (o : Oracle σ) (root : RootInfo) (root_metadata : RootMetadata)
    (blocks : List Block) (quorum_certs : List QuorumCert)
    (htc : Option TimeoutCertificate) (mp : Nat) (w : σ)
    (t1 : BlockTree) (w1 : σ) (tr1 : List Effect)
    (h : build o root root_metadata blocks quorum_certs htc mp w = .ok (t1, w1, tr1)) :
    t1.highest_timeout_cert = htc ∧ t1.max_pruned_blocks_in_mem = mp := by
  unfold build at h
  by_cases hassert : (root.root_qc.certified_block.version = 0 ∨
      root.root_qc.certified_block.version = root_metadata.version) ∧
    (root.root_qc.certified_block.executed_state_id = accumulator_placeholder_hash ∨
      root.root_qc.certified_block.executed_state_id = root_metadata.accu_hash)
  · rw [if_pos hassert] at h
    dsimp only at h
    rcases hb : buildInsertBlocks o blocks
        (BlockTree.new
          { block := root.root_block,
            compute_result :=
              { root_hash := root_metadata.accu_hash, num_leaves := root_metadata.num_leaves } }
          root.root_qc root.root_ordered_cert root.root_commit_li mp htc) w [] with rb | ⟨t2, w2, tr2⟩
    · rw [hb] at h; simp at h
    · rw [hb] at h
      dsimp only at h
      have h1 := buildInsertQCs_sameConfig o quorum_certs t2 w2 tr2 t1 w1 tr1 h
      have h2 := buildInsertBlocks_sameConfig o blocks _ w [] t2 w2 tr2 hb
      have := sameConfig_trans h1 h2
      exact ⟨this.1, this.2⟩
  · rw [if_neg hassert] at h
    simp at h

/-- Claim C8: `rebuild` unconditionally carries the old tree's state
parameters into the new tree: on success the rebuilt tree holds the same
highest timeout certificate and the same `max_pruned_blocks_in_mem`
bound, with no condition relating the new commit root's round and the
TC's round. -/
theorem c8_rebuild_carries_state {σ : Type} (o : Oracle σ) (t : BlockTree) (w : σ)
    (root : RootInfo) (root_metadata : RootMetadata) (blocks : List Block)
    (quorum_certs : List QuorumCert) (t2 : BlockTree) (w2 : σ) (tr : List Effect)
    (h : rebuild o t w root root_metadata blocks quorum_certs = .ok (t2, w2, tr)) :
    t2.highest_timeout_cert = t.highest_timeout_cert ∧
    t2.max_pruned_blocks_in_mem = t.max_pruned_blocks_in_mem := by
  unfold rebuild at h
  split at h
  · exact absurd h (by simp)
  next tN w1 tr1 heqBuild =>
    split at h
    next pr wp heqPrune =>
      split at h
      next t3 w3 tr3 heqTry =>
        simp only [Except.ok.injEq, Prod.mk.injEq] at h
        have hcfg := build_config o root root_metadata blocks quorum_certs
          t.highest_timeout_cert t.max_pruned_blocks_in_mem w tN w1 tr1 heqBuild
        have hloop := tryCommitLoop_sameConfig o
          (sortByCommitRound tN.get_all_quorum_certs_with_commit_info) tN wp []
        rw [show tryCommitLoop o (sortByCommitRound tN.get_all_quorum_certs_with_commit_info)
            tN wp [] = tryCommit o tN wp from rfl, heqTry] at hloop
        rw [← h.1]
        exact ⟨hloop.1.trans hcfg.1, hloop.2.trans hcfg.2⟩

/-- A root block at round 100 for the rebuild witness. -/
def blockR100 : Block :=
  { id := 50, epoch := 1, round := 100, parent_id := 0, timestamp_usecs := 0, payload := 0 }

/-- The old tree for the rebuild witness: root at round 0, TC at round 3. -/
def tOld : BlockTree := t0.replace_timeout_cert { round := 3 }

/-- Witness for C8: rebuilding `tOld` onto a root at round 100 (so the
new commit root's round exceeds the TC's round 3) still carries the TC
and the bound. -/
theorem c8_rebuild_carries_state_witness :
    (BlockTree.new { block := blockR100, compute_result := { root_hash := 0, num_leaves := 0 } }
        rootQC rootQC { consensus_block_id := 50 } 10
        (some { round := 3 })).highest_timeout_cert = tOld.highest_timeout_cert ∧
    (BlockTree.new { block := blockR100, compute_result := { root_hash := 0, num_leaves := 0 } }
        rootQC rootQC { consensus_block_id := 50 } 10
        (some { round := 3 })).max_pruned_blocks_in_mem = tOld.max_pruned_blocks_in_mem :=
  c8_rebuild_carries_state okOracle tOld ()
    { root_block := blockR100, root_qc := rootQC, root_ordered_cert := rootQC,
      root_commit_li := { consensus_block_id := 50 } }
    { accu_hash := 0, version := 0, num_leaves := 0 } [] []
    (BlockTree.new { block := blockR100, compute_result := { root_hash := 0, num_leaves := 0 } }
      rootQC rootQC { consensus_block_id := 50 } 10 (some { round := 3 }))
    () [.pruneTreeLog [1] true] (by rfl)

/-! ### C9: lemmas about association-list lookup and the parent walk -/

theorem lookupId_mem {α : Type} {l : List (Nat × α)} {a : Nat} {v : α}
    (h : lookupId l a = some v) : (a, v) ∈ l := by
  induction l with
  | nil => simp [lookupId] at h
  | cons kv rest ih =>
    rcases kv with ⟨k, x⟩
    rw [lookupId] at h
    by_cases hk : k = a
    · rw [if_pos hk] at h
      injection h with h
      subst hk; subst h
      exact List.mem_cons_self _ _
    · rw [if_neg hk] at h
      exact List.mem_cons_of_mem _ (ih h)

theorem lookupId_eq_none {α : Type} {l : List (Nat × α)} {a : Nat}
    (h : lookupId l a = none) : a ∉ l.map Prod.fst := by
  induction l with
  | nil => simp
  | cons kv rest ih =>
    rcases kv with ⟨k, x⟩
    rw [lookupId] at h
    by_cases hk : k = a
    · rw [if_pos hk] at h; exact absurd h (by simp)
    · rw [if_neg hk] at h
      simp only [List.map_cons, List.mem_cons]
      rintro (rfl | hmem)
      · exact hk rfl
      · exact ih h hmem

theorem lookupId_of_mem_nodup {α : Type} {l : List (Nat × α)} {a : Nat} {v : α}
    (hnd : (l.map Prod.fst).Nodup) (hmem : (a, v) ∈ l) : lookupId l a = some v := by
  induction l with
  | nil => simp at hmem
  | cons kv rest ih =>
    rcases kv with ⟨k, x⟩
    rcases List.mem_cons.1 hmem with heq | hmem'
    · injection heq with h1 h2
      subst h1; subst h2
      rw [lookupId, if_pos rfl]
    · rw [lookupId]
      by_cases hk : k = a
      · subst hk
        exfalso
        have : k ∈ rest.map Prod.fst := List.mem_map.2 ⟨(k, v), hmem', rfl⟩
        simp only [List.map_cons, List.nodup_cons] at hnd
        exact hnd.1 this
      · rw [if_neg hk]
        simp only [List.map_cons, List.nodup_cons] at hnd
        exact ih hnd.2 hmem'

theorem lookupId_filter {α : Type} {l : List (Nat × α)} (p : Nat × α → Bool)
    (hnd : (l.map Prod.fst).Nodup) (a : Nat) (v : α) :
    lookupId (l.filter p) a = some v ↔ lookupId l a = some v ∧ p (a, v) = true := by
  constructor
  · intro h
    have hmem := lookupId_mem h
    have hmem' := List.mem_of_mem_filter hmem
    have hp := List.of_mem_filter hmem
    exact ⟨lookupId_of_mem_nodup hnd hmem', hp⟩
  · rintro ⟨h, hp⟩
    have hmem := lookupId_mem h
    have hnd' : ((l.filter p).map Prod.fst).Nodup :=
      List.Nodup.sublist ((List.filter_sublist l).map Prod.fst) hnd
    exact lookupId_of_mem_nodup hnd' (List.mem_filter.2 ⟨hmem, hp⟩)

/-- Success of the parent walk is monotone in the fuel. -/
theorem pathAux_mono (bl : List (Nat × ExecutedBlock)) (rI rR : Nat) :
    ∀ (f f' id : Nat) (acc l : List ExecutedBlock), f ≤ f' →
      pathAux bl rI rR f id acc = some l → pathAux bl rI rR f' id acc = some l := by
  intro f
  induction f with
  | zero =>
    intro f' id acc l _ h
    rw [pathAux] at h ⊢
    cases hlk : lookupId bl id with
    | none => rw [hlk] at h; exact absurd h (by simp)
    | some b =>
      rw [hlk] at h
      dsimp only at h ⊢
      by_cases hbr : b.block.round ≤ rR
      · rw [if_pos hbr] at h ⊢; exact h
      · rw [if_neg hbr] at h; simp at h
  | succ f ih =>
    intro f' id acc l hle h
    rw [pathAux] at h ⊢
    cases hlk : lookupId bl id with
    | none => rw [hlk] at h; exact absurd h (by simp)
    | some b =>
      rw [hlk] at h
      dsimp only at h ⊢
      by_cases hbr : b.block.round ≤ rR
      · rw [if_pos hbr] at h ⊢; exact h
      · rw [if_neg hbr] at h ⊢
        cases f' with
        | zero => omega
        | succ g =>
          dsimp only at h ⊢
          exact ih g b.block.parent_id (b :: acc) l (Nat.le_of_succ_le_succ hle) h

/-- The accumulator only suffixes the result of the walk. -/
theorem pathAux_acc_eq (bl : List (Nat × ExecutedBlock)) (rI rR : Nat) :
    ∀ (f id : Nat) (acc : List ExecutedBlock),
      pathAux bl rI rR f id acc = (pathAux bl rI rR f id []).map (· ++ acc) := by
  intro f
  induction f with
  | zero =>
    intro id acc
    rw [pathAux]
    conv_rhs => rw [pathAux]
    cases hlk : lookupId bl id with
    | none => rfl
    | some b =>
      dsimp only
      by_cases hbr : b.block.round ≤ rR
      · rw [if_pos hbr, if_pos hbr]
        by_cases hid : id = rI
        · rw [if_pos hid, if_pos hid]; simp
        · rw [if_neg hid, if_neg hid]; rfl
      · rw [if_neg hbr, if_neg hbr]; rfl
  | succ f ih =>
    intro id acc
    rw [pathAux]
    conv_rhs => rw [pathAux]
    cases hlk : lookupId bl id with
    | none => rfl
    | some b =>
      dsimp only
      by_cases hbr : b.block.round ≤ rR
      · rw [if_pos hbr, if_pos hbr]
        by_cases hid : id = rI
        · rw [if_pos hid, if_pos hid]; simp
        · rw [if_neg hid, if_neg hid]; rfl
      · rw [if_neg hbr, if_neg hbr]
        rw [ih b.block.parent_id (b :: acc), ih b.block.parent_id [b]]
        cases pathAux bl rI rR f b.block.parent_id [] <;> simp

/-- A successful walk survives any extension of the block map. -/
theorem pathAux_extend (bl bl' : List (Nat × ExecutedBlock)) (rI rR : Nat)
    (hext : ∀ a v, lookupId bl a = some v → lookupId bl' a = some v) :
    ∀ (f id : Nat) (acc l : List ExecutedBlock),
      pathAux bl rI rR f id acc = some l → pathAux bl' rI rR f id acc = some l := by
  intro f
  induction f with
  | zero =>
    intro id acc l h
    rw [pathAux] at h ⊢
    cases hlk : lookupId bl id with
    | none => rw [hlk] at h; exact absurd h (by simp)
    | some b =>
      rw [hlk] at h
      rw [hext id b hlk]
      dsimp only at h ⊢
      by_cases hbr : b.block.round ≤ rR
      · rw [if_pos hbr] at h ⊢; exact h
      · rw [if_neg hbr] at h; simp at h
  | succ f ih =>
    intro id acc l h
    rw [pathAux] at h ⊢
    cases hlk : lookupId bl id with
    | none => rw [hlk] at h; exact absurd h (by simp)
    | some b =>
      rw [hlk] at h
      rw [hext id b hlk]
      dsimp only at h ⊢
      by_cases hbr : b.block.round ≤ rR
      · rw [if_pos hbr] at h ⊢; exact h
      · rw [if_neg hbr] at h ⊢
        exact ih b.block.parent_id (b :: acc) l h

/-- Under strictly decreasing rounds along present parent links, a
successful walk already succeeds with the starting block's round as
fuel. -/
theorem pathAux_roundFuel (bl : List (Nat × ExecutedBlock)) (rI rR : Nat)
    (hpr : ∀ id b p, lookupId bl id = some b → rR < b.block.round →
      lookupId bl b.block.parent_id = some p → p.block.round < b.block.round) :
    ∀ (f id : Nat) (acc l : List ExecutedBlock) (b : ExecutedBlock),
      pathAux bl rI rR f id acc = some l → lookupId bl id = some b →
      pathAux bl rI rR b.block.round id acc = some l := by
  intro f
  induction f with
  | zero =>
    intro id acc l b h hb
    rw [pathAux] at h ⊢
    rw [hb] at h ⊢
    dsimp only at h ⊢
    by_cases hbr : b.block.round ≤ rR
    · rw [if_pos hbr] at h ⊢; exact h
    · rw [if_neg hbr] at h; simp at h
  | succ f ih =>
    intro id acc l b h hb
    rw [pathAux] at h ⊢
    rw [hb] at h ⊢
    dsimp only at h ⊢
    by_cases hbr : b.block.round ≤ rR
    · rw [if_pos hbr] at h ⊢; exact h
    · rw [if_neg hbr] at h ⊢
      cases hround : b.block.round with
      | zero => omega
      | succ m =>
        dsimp only
        cases hp : lookupId bl b.block.parent_id with
        | none =>
          exfalso
          rw [pathAux, hp] at h
          exact absurd h (by simp)
        | some p =>
          by_cases hpbr : p.block.round ≤ rR
          · rw [pathAux, hp] at h ⊢
            dsimp only at h ⊢
            rw [if_pos hpbr] at h ⊢
            exact h
          · have hlt := hpr id b p hb (Nat.lt_of_not_le hbr) hp
            have hstep := ih b.block.parent_id (b :: acc) l p h hp
            exact pathAux_mono bl rI rR p.block.round m b.block.parent_id (b :: acc) l
              (by omega) hstep

/-! ### C9: the tree invariant and its preservation -/

theorem lookupId_cons_ne {α : Type} (k : Nat) (v : α) (l : List (Nat × α)) (a : Nat)
    (h : k ≠ a) : lookupId ((k, v) :: l) a = lookupId l a := by
  rw [lookupId, if_neg h]

/-- The well-formedness invariant of reachable block trees: unique keys
matching the blocks' own ids, a present ordered root, strictly decreasing
rounds along present parent links away from the root, and every block
connected to the ordered root by a parent walkable path. -/
structure TreeInv (t : BlockTree) : Prop where
  nodup : (t.blocks.map Prod.fst).Nodup
  keys : ∀ e ∈ t.blocks, e.2.block.id = e.1
  root_mem : (t.get_block t.ordered_root_id).isSome
  parent_round : ∀ e ∈ t.blocks, e.1 ≠ t.ordered_root_id →
    ∀ p, t.get_block e.2.block.parent_id = some p → p.block.round < e.2.block.round
  connected : ∀ e ∈ t.blocks, (t.path_from_ordered_root e.1).isSome

theorem ordered_root_round_eq {t : BlockTree} {rootB : ExecutedBlock}
    (h : t.get_block t.ordered_root_id = some rootB) :
    t.ordered_root_round = rootB.block.round := by
  unfold BlockTree.ordered_root_round
  rw [h]

theorem path_unfold {t : BlockTree} {rootB v : ExecutedBlock}
    (hroot : t.get_block t.ordered_root_id = some rootB) {x : Nat}
    (hx : t.get_block x = some v) :
    t.path_from_ordered_root x =
      pathAux t.blocks t.ordered_root_id rootB.block.round (v.block.round + 1) x [] := by
  unfold BlockTree.path_from_ordered_root BlockTree.path_from_root_id
  rw [hroot, hx]

/-- In an invariant-satisfying tree, rounds strictly decrease along every
parent link whose child's round exceeds any bound at or above the ordered
root's. -/
theorem inv_hpr {t : BlockTree} (hinv : TreeInv t) (rR : Nat)
    (hrR : t.ordered_root_round ≤ rR) :
    ∀ id b p, lookupId t.blocks id = some b → rR < b.block.round →
      lookupId t.blocks b.block.parent_id = some p → p.block.round < b.block.round := by
  intro id b p hb hr hp
  have hmem := lookupId_mem hb
  have hid : id ≠ t.ordered_root_id := by
    intro heq
    subst heq
    have : t.ordered_root_round = b.block.round := by
      unfold BlockTree.ordered_root_round BlockTree.get_block
      rw [hb]
    omega
  exact hinv.parent_round (id, b) hmem hid p hp

/-- A non-root block of an invariant-satisfying tree has a present parent
and a round above the ordered root's. -/
theorem inv_parent_present {t : BlockTree} (hinv : TreeInv t) {e : Nat × ExecutedBlock}
    (he : e ∈ t.blocks) (hne : e.1 ≠ t.ordered_root_id) :
    (∃ q, t.get_block e.2.block.parent_id = some q) ∧
      t.ordered_root_round < e.2.block.round := by
  rcases Option.isSome_iff_exists.1 hinv.root_mem with ⟨rootB, hrootB⟩
  have hlk : t.get_block e.1 = some e.2 := lookupId_of_mem_nodup hinv.nodup he
  have hconn := hinv.connected e he
  rw [path_unfold hrootB hlk] at hconn
  rcases Option.isSome_iff_exists.1 hconn with ⟨l, hl⟩
  rw [pathAux] at hl
  have hlk' : lookupId t.blocks e.1 = some e.2 := hlk
  rw [hlk'] at hl
  dsimp only at hl
  by_cases hbr : e.2.block.round ≤ rootB.block.round
  · rw [if_pos hbr, if_neg hne] at hl
    exact absurd hl (by simp)
  · rw [if_neg hbr] at hl
    rw [pathAux] at hl
    cases hp : lookupId t.blocks e.2.block.parent_id with
    | none => rw [hp] at hl; exact absurd hl (by simp)
    | some q =>
      refine ⟨⟨q, hp⟩, ?_⟩
      rw [ordered_root_round_eq hrootB]
      omega

/-- The singleton tree created by `BlockTree.new` satisfies the invariant. -/
theorem inv_new (root : ExecutedBlock) (qc oc : QuorumCert) (li : LedgerInfoWithSignatures)
    (mp : Nat) (htc : Option TimeoutCertificate) :
    TreeInv (BlockTree.new root qc oc li mp htc) := by
  refine ⟨?_, ?_, ?_, ?_, ?_⟩
  · simp [BlockTree.new]
  · intro e he
    simp only [BlockTree.new, List.mem_singleton] at he
    subst he
    rfl
  · simp [BlockTree.new, BlockTree.get_block, lookupId]
  · intro e he hne p hp
    simp only [BlockTree.new, List.mem_singleton] at he
    subst he
    exact absurd rfl hne
  · intro e he
    simp only [BlockTree.new, List.mem_singleton] at he
    subst he
    simp [BlockTree.new, BlockTree.path_from_ordered_root, BlockTree.path_from_root_id,
      BlockTree.get_block, lookupId, pathAux]

/-- The invariant only reads the block map and the ordered root id. -/
theorem inv_congr {t t' : BlockTree} (h : TreeInv t) (hb : t'.blocks = t.blocks)
    (hr : t'.ordered_root_id = t.ordered_root_id) : TreeInv t' := by
  have hget : ∀ x, t'.get_block x = t.get_block x := by
    intro x
    unfold BlockTree.get_block
    rw [hb]
  have hpath : ∀ x, t'.path_from_ordered_root x = t.path_from_ordered_root x := by
    intro x
    unfold BlockTree.path_from_ordered_root BlockTree.path_from_root_id
    rw [hr, hget, hget, hb]
  refine ⟨?_, ?_, ?_, ?_, ?_⟩
  · rw [hb]; exact h.nodup
  · rw [hb]; exact h.keys
  · rw [hget, hr]; exact h.root_mem
  · intro e he hne p hp
    rw [hb] at he
    rw [hr] at hne
    rw [hget] at hp
    exact h.parent_round e he hne p hp
  · intro e he
    rw [hb] at he
    rw [hpath]
    exact h.connected e he

/-- Inserting a fresh block above the ordered root, with its parent
present at a smaller round, preserves the invariant. -/
theorem inv_insert {t : BlockTree} (hinv : TreeInv t) (b : Block) (eb : ExecutedBlock)
    (hblk : eb.block = b) (hfresh : t.get_block b.id = none)
    (hround : t.ordered_root_round < b.round)
    (parent : ExecutedBlock) (hpar : t.get_block b.parent_id = some parent)
    (hpround : parent.block.round < b.round) :
    TreeInv { t with blocks := (b.id, eb) :: t.blocks } := by
  rcases Option.isSome_iff_exists.1 hinv.root_mem with ⟨rootB, hrootB⟩
  have hRootRound : t.ordered_root_round = rootB.block.round := ordered_root_round_eq hrootB
  have hbid_ne_root : b.id ≠ t.ordered_root_id := by
    intro heq
    rw [heq] at hfresh
    rw [hfresh] at hrootB
    cases hrootB
  have hext : ∀ a v, lookupId t.blocks a = some v →
      lookupId ((b.id, eb) :: t.blocks) a = some v := by
    intro a v hv
    have hne : b.id ≠ a := by
      intro heq
      subst heq
      rw [show t.get_block b.id = lookupId t.blocks b.id from rfl, hv] at hfresh
      cases hfresh
    rw [lookupId_cons_ne _ _ _ _ hne]
    exact hv
  have hparent_ne : b.parent_id ≠ b.id := by
    intro heq
    rw [heq] at hpar
    rw [hpar] at hfresh
    cases hfresh
  have hlookupNew : lookupId ((b.id, eb) :: t.blocks) b.id = some eb := by
    rw [lookupId, if_pos rfl]
  refine ⟨?_, ?_, ?_, ?_, ?_⟩
  · simp only [List.map_cons, List.nodup_cons]
    exact ⟨lookupId_eq_none hfresh, hinv.nodup⟩
  · intro e he
    rcases List.mem_cons.1 he with rfl | he'
    · show eb.block.id = b.id
      rw [hblk]
    · exact hinv.keys e he'
  · show (lookupId ((b.id, eb) :: t.blocks) t.ordered_root_id).isSome
    rw [hext _ _ hrootB]
    rfl
  · intro e he hne p hp
    rcases List.mem_cons.1 he with rfl | he'
    · show p.block.round < eb.block.round
      have hp0 : lookupId ((b.id, eb) :: t.blocks) eb.block.parent_id = some p := hp
      rw [show eb.block.parent_id = b.parent_id by rw [hblk]] at hp0
      rw [lookupId_cons_ne _ _ _ _ (fun heq => hparent_ne heq.symm)] at hp0
      have hpq : p = parent := by
        have hpar' : lookupId t.blocks b.parent_id = some parent := hpar
        rw [hpar'] at hp0
        injection hp0 with h
        exact h.symm
      subst hpq
      rw [hblk]
      exact hpround
    · have hne' : e.1 ≠ t.ordered_root_id := hne
      have hold := inv_parent_present hinv he' hne'
      rcases hold.1 with ⟨q, hq⟩
      have hne2 : b.id ≠ e.2.block.parent_id := by
        intro heq
        rw [← heq] at hq
        exact absurd (hfresh.symm.trans hq) (by simp)
      have hp' : lookupId ((b.id, eb) :: t.blocks) e.2.block.parent_id = some p := hp
      rw [lookupId_cons_ne _ _ _ _ hne2] at hp'
      exact hinv.parent_round e he' hne' p hp'
  · intro e he
    have hroot' : lookupId ((b.id, eb) :: t.blocks) t.ordered_root_id = some rootB :=
      hext _ _ hrootB
    rcases List.mem_cons.1 he with rfl | he'
    · show (({ t with blocks := (b.id, eb) :: t.blocks } :
          BlockTree).path_from_ordered_root b.id).isSome
      have hpath : ({ t with blocks := (b.id, eb) :: t.blocks } :
          BlockTree).path_from_ordered_root b.id =
          pathAux ((b.id, eb) :: t.blocks) t.ordered_root_id rootB.block.round
            (eb.block.round + 1) b.id [] := by
        unfold BlockTree.path_from_ordered_root BlockTree.path_from_root_id
        show (match lookupId ((b.id, eb) :: t.blocks) t.ordered_root_id with
          | none => none
          | some rootB' =>
            match lookupId ((b.id, eb) :: t.blocks) b.id with
            | none => none
            | some v => pathAux ((b.id, eb) :: t.blocks) t.ordered_root_id
                rootB'.block.round (v.block.round + 1) b.id []) = _
        rw [hroot', hlookupNew]
      rw [hpath]
      -- the parent chain of the new block
      have hparmem := lookupId_mem
        (show lookupId t.blocks b.parent_id = some parent from hpar)
      have hconnp := hinv.connected _ hparmem
      rw [path_unfold hrootB hpar] at hconnp
      rcases Option.isSome_iff_exists.1 hconnp with ⟨lp, hlp⟩
      have hlp2 : pathAux t.blocks t.ordered_root_id rootB.block.round b.round
          b.parent_id [] = some lp :=
        pathAux_mono t.blocks _ _ _ _ _ _ _ (by omega) hlp
      have hlp3 : pathAux ((b.id, eb) :: t.blocks) t.ordered_root_id rootB.block.round
          b.round b.parent_id [] = some lp :=
        pathAux_extend t.blocks _ _ _ hext _ _ _ _ hlp2
      have hlp4 : pathAux ((b.id, eb) :: t.blocks) t.ordered_root_id rootB.block.round
          b.round b.parent_id [eb] = some (lp ++ [eb]) := by
        rw [pathAux_acc_eq, hlp3]
        rfl
      rw [pathAux, hlookupNew]
      dsimp only
      rw [if_neg (by rw [hblk]; omega)]
      rw [show eb.block.round = b.round by rw [hblk]]
      rw [show eb.block.parent_id = b.parent_id by rw [hblk]]
      rw [hlp4]
      rfl
    · have hlk : t.get_block e.1 = some e.2 := lookupId_of_mem_nodup hinv.nodup he'
      have hconn := hinv.connected e he'
      rw [path_unfold hrootB hlk] at hconn
      rcases Option.isSome_iff_exists.1 hconn with ⟨l, hl⟩
      have he1ne : b.id ≠ e.1 := by
        intro heq
        rw [← heq] at hlk
        exact absurd (hfresh.symm.trans hlk) (by simp)
      have hlk' : lookupId ((b.id, eb) :: t.blocks) e.1 = some e.2 := by
        rw [lookupId_cons_ne _ _ _ _ he1ne]
        exact hlk
      have hpath : ({ t with blocks := (b.id, eb) :: t.blocks } :
          BlockTree).path_from_ordered_root e.1 =
          pathAux ((b.id, eb) :: t.blocks) t.ordered_root_id rootB.block.round
            (e.2.block.round + 1) e.1 [] := by
        unfold BlockTree.path_from_ordered_root BlockTree.path_from_root_id
        show (match lookupId ((b.id, eb) :: t.blocks) t.ordered_root_id with
          | none => none
          | some rootB' =>
            match lookupId ((b.id, eb) :: t.blocks) e.1 with
            | none => none
            | some v => pathAux ((b.id, eb) :: t.blocks) t.ordered_root_id
                rootB'.block.round (v.block.round + 1) e.1 []) = _
        rw [hroot', hlk']
      rw [hpath]
      rw [pathAux_extend t.blocks _ _ _ hext _ _ _ _ hl]
      rfl

/-- Restricting the block map to blocks that can walk to the new root
preserves every successful walk towards that root. -/
theorem pathAux_filter_keep (bl : List (Nat × ExecutedBlock)) (cid rRt : Nat)
    (hnd : (bl.map Prod.fst).Nodup)
    (hpr : ∀ id b p, lookupId bl id = some b → rRt < b.block.round →
      lookupId bl b.block.parent_id = some p → p.block.round < b.block.round)
    (keepP : Nat × ExecutedBlock → Bool)
    (hkeep : ∀ id b, lookupId bl id = some b →
      (pathAux bl cid rRt (b.block.round + 1) id []).isSome → keepP (id, b) = true) :
    ∀ (f id : Nat) (acc l : List ExecutedBlock),
      pathAux bl cid rRt f id acc = some l →
      pathAux (bl.filter keepP) cid rRt f id acc = some l := by
  intro f
  induction f with
  | zero =>
    intro id acc l h
    have horig := h
    rw [pathAux] at h ⊢
    cases hlk : lookupId bl id with
    | none => rw [hlk] at h; exact absurd h (by simp)
    | some b =>
      rw [hlk] at h
      dsimp only at h
      have hsome : (pathAux bl cid rRt (b.block.round + 1) id []).isSome = true := by
        have hacc := pathAux_acc_eq bl cid rRt 0 id acc
        rw [horig] at hacc
        cases hc : pathAux bl cid rRt 0 id [] with
        | none => rw [hc] at hacc; exact absurd hacc (by simp)
        | some c =>
          have hc' := pathAux_roundFuel bl cid rRt hpr 0 id [] c b hc hlk
          rw [pathAux_mono bl cid rRt b.block.round (b.block.round + 1) id [] c
            (Nat.le_succ _) hc']
          rfl
      have hlkf : lookupId (bl.filter keepP) id = some b :=
        (lookupId_filter keepP hnd id b).mpr ⟨hlk, hkeep id b hlk hsome⟩
      rw [hlkf]
      dsimp only
      by_cases hbr : b.block.round ≤ rRt
      · rw [if_pos hbr] at h ⊢; exact h
      · rw [if_neg hbr] at h; exact absurd h (by simp)
  | succ f ih =>
    intro id acc l h
    have horig := h
    rw [pathAux] at h ⊢
    cases hlk : lookupId bl id with
    | none => rw [hlk] at h; exact absurd h (by simp)
    | some b =>
      rw [hlk] at h
      dsimp only at h
      have hsome : (pathAux bl cid rRt (b.block.round + 1) id []).isSome = true := by
        have hacc := pathAux_acc_eq bl cid rRt (f + 1) id acc
        rw [horig] at hacc
        cases hc : pathAux bl cid rRt (f + 1) id [] with
        | none => rw [hc] at hacc; exact absurd hacc (by simp)
        | some c =>
          have hc' := pathAux_roundFuel bl cid rRt hpr (f + 1) id [] c b hc hlk
          rw [pathAux_mono bl cid rRt b.block.round (b.block.round + 1) id [] c
            (Nat.le_succ _) hc']
          rfl
      have hlkf : lookupId (bl.filter keepP) id = some b :=
        (lookupId_filter keepP hnd id b).mpr ⟨hlk, hkeep id b hlk hsome⟩
      rw [hlkf]
      dsimp only
      by_cases hbr : b.block.round ≤ rRt
      · rw [if_pos hbr] at h ⊢; exact h
      · rw [if_neg hbr] at h ⊢
        exact ih b.block.parent_id (b :: acc) l h

/-- Membership in `find_blocks_to_prune`: the ids in the tree whose
parent walk does not reach the new root. -/
theorem find_blocks_to_prune_mem (t : BlockTree) (cid id : Nat) :
    id ∈ t.find_blocks_to_prune cid ↔
      id ∈ t.blocks.map Prod.fst ∧ (t.path_from_root_id cid id).isNone = true := by
  unfold BlockTree.find_blocks_to_prune
  rw [List.mem_filter]

/-- Pruning every block that cannot walk to a present block `bc` above
the ordered root, and making `bc` the new root, preserves the
invariant. -/
theorem inv_prune_general {t : BlockTree} (hinv : TreeInv t) (cid : Nat) (bc : ExecutedBlock)
    (hget : t.get_block cid = some bc) (hr : t.ordered_root_round < bc.block.round)
    (pruned : List Nat)
    (hpruned : ∀ id, id ∈ pruned ↔
      (id ∈ t.blocks.map Prod.fst ∧ (t.path_from_root_id cid id).isNone = true))
    (t' : BlockTree)
    (hb' : t'.blocks = t.blocks.filter (fun e => decide (e.1 ∉ pruned)))
    (hr' : t'.ordered_root_id = cid) :
    TreeInv t' := by
  rcases Option.isSome_iff_exists.1 hinv.root_mem with ⟨rootB, hrootB⟩
  have hRR : t.ordered_root_round = rootB.block.round := ordered_root_round_eq hrootB
  have hpr := inv_hpr hinv bc.block.round (Nat.le_of_lt hr)
  have hpathcid : ∀ id b, lookupId t.blocks id = some b →
      t.path_from_root_id cid id =
        pathAux t.blocks cid bc.block.round (b.block.round + 1) id [] := by
    intro id b hb
    unfold BlockTree.path_from_root_id
    rw [hget]
    rw [show t.get_block id = lookupId t.blocks id from rfl, hb]
  have hkeep : ∀ id b, lookupId t.blocks id = some b →
      (pathAux t.blocks cid bc.block.round (b.block.round + 1) id []).isSome = true →
      (fun e : Nat × ExecutedBlock => decide (e.1 ∉ pruned)) (id, b) = true := by
    intro id b hb hsome
    simp only [decide_eq_true_eq]
    intro hmem
    rw [hpruned] at hmem
    rw [hpathcid id b hb] at hmem
    rw [Option.isNone_iff_eq_none] at hmem
    rw [hmem.2] at hsome
    cases hsome
  have hkeepcid : (fun e : Nat × ExecutedBlock => decide (e.1 ∉ pruned)) (cid, bc) = true := by
    apply hkeep cid bc hget
    rw [pathAux]
    rw [show lookupId t.blocks cid = some bc from hget]
    dsimp only
    rw [if_pos (Nat.le_refl _), if_pos rfl]
    rfl
  have hrootf : lookupId (t.blocks.filter (fun e => decide (e.1 ∉ pruned))) cid = some bc :=
    (lookupId_filter _ hinv.nodup cid bc).mpr ⟨hget, hkeepcid⟩
  have hnd' : (t'.blocks.map Prod.fst).Nodup := by
    rw [hb']
    exact List.Nodup.sublist ((List.filter_sublist t.blocks).map Prod.fst) hinv.nodup
  -- a kept non-new-root entry is not the old root
  have hnotoldroot : ∀ e : Nat × ExecutedBlock, e ∈ t.blocks →
      (fun e : Nat × ExecutedBlock => decide (e.1 ∉ pruned)) e = true →
      e.1 ≠ cid → e.1 ≠ t.ordered_root_id := by
    intro e hemem hekeep hne heq
    have hlk : lookupId t.blocks e.1 = some e.2 := lookupId_of_mem_nodup hinv.nodup hemem
    have he2 : e.2 = rootB := by
      rw [heq] at hlk
      rw [show t.get_block t.ordered_root_id = lookupId t.blocks t.ordered_root_id
        from rfl] at hrootB
      rw [hrootB] at hlk
      injection hlk with h
      exact h.symm
    have hpathnone : t.path_from_root_id cid e.1 = none := by
      rw [hpathcid e.1 e.2 hlk]
      rw [pathAux, hlk]
      dsimp only
      rw [if_pos (by rw [he2]; omega), if_neg hne]
    simp only [decide_eq_true_eq] at hekeep
    exact hekeep ((hpruned e.1).mpr ⟨List.mem_map.2 ⟨e, hemem, rfl⟩, by
      rw [hpathnone]; rfl⟩)
  refine ⟨hnd', ?_, ?_, ?_, ?_⟩
  · intro e he
    rw [hb'] at he
    exact hinv.keys e (List.mem_of_mem_filter he)
  · show (t'.get_block t'.ordered_root_id).isSome = true
    unfold BlockTree.get_block
    rw [hb', hr', hrootf]
    rfl
  · intro e he hne p hp
    rw [hb'] at he
    rw [hr'] at hne
    rcases List.mem_filter.1 he with ⟨hemem, hekeep⟩
    unfold BlockTree.get_block at hp
    rw [hb'] at hp
    have hp' := ((lookupId_filter _ hinv.nodup _ _).1 hp).1
    exact hinv.parent_round e hemem (hnotoldroot e hemem hekeep hne) p hp'
  · intro e he
    rw [hb'] at he
    rcases List.mem_filter.1 he with ⟨hemem, hekeep⟩
    have hlk : lookupId t.blocks e.1 = some e.2 := lookupId_of_mem_nodup hinv.nodup hemem
    have hsome : (t.path_from_root_id cid e.1).isSome = true := by
      simp only [decide_eq_true_eq] at hekeep
      by_cases hn : (t.path_from_root_id cid e.1).isNone = true
      · exact absurd ((hpruned e.1).mpr ⟨List.mem_map.2 ⟨e, hemem, rfl⟩, hn⟩) hekeep
      · cases hopt : t.path_from_root_id cid e.1 with
        | none => rw [hopt] at hn; exact absurd rfl hn
        | some l => rfl
    rw [hpathcid e.1 e.2 hlk] at hsome
    rcases Option.isSome_iff_exists.1 hsome with ⟨l, hl⟩
    have hlf := pathAux_filter_keep t.blocks cid bc.block.round hinv.nodup hpr
      (fun e : Nat × ExecutedBlock => decide (e.1 ∉ pruned)) hkeep
      (e.2.block.round + 1) e.1 [] l hl
    have hlkf : lookupId (t.blocks.filter (fun e => decide (e.1 ∉ pruned))) e.1 = some e.2 :=
      (lookupId_filter _ hinv.nodup _ _).mpr ⟨hlk, hekeep⟩
    show (t'.path_from_ordered_root e.1).isSome = true
    unfold BlockTree.path_from_ordered_root BlockTree.path_from_root_id
      BlockTree.get_block
    rw [hb', hr', hrootf, hlkf]
    dsimp only
    rw [hlf]
    rfl

/-! ### C9: invariant preservation by every Block Store operation -/

theorem insert_quorum_cert_blocks (t : BlockTree) (qc : QuorumCert) :
    (t.insert_quorum_cert qc).blocks = t.blocks ∧
    (t.insert_quorum_cert qc).ordered_root_id = t.ordered_root_id := by
  unfold BlockTree.insert_quorum_cert
  by_cases h : (lookupId t.id_to_quorum_cert qc.certified_block.id).isSome
  · rw [if_pos h]; exact ⟨rfl, rfl⟩
  · rw [if_neg h]; exact ⟨rfl, rfl⟩

theorem itc_tree_cases {σ : Type} (o : Oracle σ) (t : BlockTree) (w : σ)
    (tc : TimeoutCertificate) :
    (insert_timeout_certificate o t w tc).2.1 = t ∨
    (insert_timeout_certificate o t w tc).2.1 = t.replace_timeout_cert tc := by
  by_cases h : tc.round ≤ highestTimeoutCertRound t
  · left
    rw [show insert_timeout_certificate o t w tc = (.ok (), t, w, []) by
      simp [insert_timeout_certificate, h]]
  · rcases hs : o.save_highest_timeout_cert w tc with ⟨rs, w1⟩
    cases rs with
    | error c =>
      left
      rw [show (insert_timeout_certificate o t w tc).2.1 = t by
        unfold insert_timeout_certificate
        rw [if_neg h, hs]]
    | ok u =>
      right
      rw [show (insert_timeout_certificate o t w tc).2.1 = t.replace_timeout_cert tc by
        unfold insert_timeout_certificate
        rw [if_neg h, hs]]

theorem inv_eaib {σ : Type} (o : Oracle σ) (t : BlockTree) (w : σ) (b : Block)
    (hinv : TreeInv t) : TreeInv (execute_and_insert_block o t w b).2.1 := by
  rcases eaib_tree_cases o t w b with h | ⟨eb, hblk, hfresh, hround, ⟨parent, hpar, hpround⟩, h⟩
  · rw [h]; exact hinv
  · rw [h]; exact inv_insert hinv b eb hblk hfresh hround parent hpar hpround

theorem inv_isqc {σ : Type} (o : Oracle σ) (t : BlockTree) (w : σ) (qc : QuorumCert)
    (hinv : TreeInv t) : TreeInv (insert_single_quorum_cert o t w qc).2.1 := by
  rcases isqc_tree_cases o t w qc with h | h
  · rw [h]; exact hinv
  · rw [h]
    exact inv_congr hinv (insert_quorum_cert_blocks t qc).1 (insert_quorum_cert_blocks t qc).2

theorem inv_itc {σ : Type} (o : Oracle σ) (t : BlockTree) (w : σ) (tc : TimeoutCertificate)
    (hinv : TreeInv t) : TreeInv (insert_timeout_certificate o t w tc).2.1 := by
  rcases itc_tree_cases o t w tc with h | h
  · rw [h]; exact hinv
  · rw [h]
    exact inv_congr hinv rfl rfl

theorem inv_commit {σ : Type} (o : Oracle σ) (t : BlockTree) (w : σ)
    (finality_proof : LedgerInfoWithSignatures) (hinv : TreeInv t) :
    TreeInv (commit o t w finality_proof).2.1 := by
  rcases commit_tree_cases o t w finality_proof with h | ⟨bc, hget, hr, h⟩
  · rw [h]; exact hinv
  · rw [h]
    have hbcid : bc.block.id = finality_proof.consensus_block_id :=
      hinv.keys _ (lookupId_mem hget)
    rw [hbcid]
    refine inv_prune_general hinv finality_proof.consensus_block_id bc hget hr
      (((t.update_ordered_root_id finality_proof.consensus_block_id).update_highest_ledger_info
          finality_proof).find_blocks_to_prune finality_proof.consensus_block_id)
      ?_ _ rfl rfl
    intro id
    exact find_blocks_to_prune_mem
      ((t.update_ordered_root_id finality_proof.consensus_block_id).update_highest_ledger_info
        finality_proof) finality_proof.consensus_block_id id

theorem inv_tryCommitLoop {σ : Type} (o : Oracle σ) (certs : List QuorumCert)
    (t : BlockTree) (w : σ) (tr : List Effect) (hinv : TreeInv t) :
    TreeInv (tryCommitLoop o certs t w tr).1 := by
  induction certs generalizing t w tr with
  | nil => exact hinv
  | cons qc rest ih =>
    by_cases h : t.commit_root_round < qc.commit_info.round
    · rcases hc : commit o t w qc.ledger_info with ⟨r, t1, w1, trc⟩
      rw [tryCommitLoop, if_pos h, hc]
      refine ih t1 w1 (tr ++ trc) ?_
      have := inv_commit o t w qc.ledger_info hinv
      rw [hc] at this
      exact this
    · rw [tryCommitLoop, if_neg h]
      exact ih t w tr hinv

theorem inv_buildInsertBlocks {σ : Type} (o : Oracle σ) (blocks : List Block)
    (t : BlockTree) (w : σ) (tr : List Effect) (t1 : BlockTree) (w1 : σ) (tr1 : List Effect)
    (h : buildInsertBlocks o blocks t w tr = .ok (t1, w1, tr1)) (hinv : TreeInv t) :
    TreeInv t1 := by
  induction blocks generalizing t w tr with
  | nil =>
    rw [buildInsertBlocks] at h
    simp only [Except.ok.injEq, Prod.mk.injEq] at h
    rw [← h.1]
    exact hinv
  | cons b rest ih =>
    rw [buildInsertBlocks] at h
    rcases he : execute_and_insert_block o t w b with ⟨r, t2, w2, tr2⟩
    rw [he] at h
    cases r with
    | error e => simp at h
    | ok eb =>
      dsimp only at h
      refine ih t2 w2 (tr ++ tr2) h ?_
      have := inv_eaib o t w b hinv
      rw [he] at this
      exact this

theorem inv_buildInsertQCs {σ : Type} (o : Oracle σ) (qcs : List QuorumCert)
    (t : BlockTree) (w : σ) (tr : List Effect) (t1 : BlockTree) (w1 : σ) (tr1 : List Effect)
    (h : buildInsertQCs o qcs t w tr = .ok (t1, w1, tr1)) (hinv : TreeInv t) :
    TreeInv t1 := by
  induction qcs generalizing t w tr with
  | nil =>
    rw [buildInsertQCs] at h
    simp only [Except.ok.injEq, Prod.mk.injEq] at h
    rw [← h.1]
    exact hinv
  | cons qc rest ih =>
    rw [buildInsertQCs] at h
    rcases he : insert_single_quorum_cert o t w qc with ⟨r, t2, w2, tr2⟩
    rw [he] at h
    cases r with
    | error e => simp at h
    | ok u =>
      dsimp only at h
      refine ih t2 w2 (tr ++ tr2) h ?_
      have := inv_isqc o t w qc hinv
      rw [he] at this
      exact this

theorem inv_build {σ : Type} (o : Oracle σ) (root : RootInfo) (root_metadata : RootMetadata)
    (blocks : List Block) (quorum_certs : List QuorumCert)
    (htc : Option TimeoutCertificate) (mp : Nat) (w : σ)
    (t1 : BlockTree) (w1 : σ) (tr1 : List Effect)
    (h : build o root root_metadata blocks quorum_certs htc mp w = .ok (t1, w1, tr1)) :
    TreeInv t1 := by
  unfold build at h
  by_cases hassert : (root.root_qc.certified_block.version = 0 ∨
      root.root_qc.certified_block.version = root_metadata.version) ∧
    (root.root_qc.certified_block.executed_state_id = accumulator_placeholder_hash ∨
      root.root_qc.certified_block.executed_state_id = root_metadata.accu_hash)
  · rw [if_pos hassert] at h
    dsimp only at h
    rcases hb : buildInsertBlocks o blocks
        (BlockTree.new
          { block := root.root_block,
            compute_result :=
              { root_hash := root_metadata.accu_hash, num_leaves := root_metadata.num_leaves } }
          root.root_qc root.root_ordered_cert root.root_commit_li mp htc) w []
      with rb | ⟨t2, w2, tr2⟩
    · rw [hb] at h; simp at h
    · rw [hb] at h
      dsimp only at h
      exact inv_buildInsertQCs o quorum_certs t2 w2 tr2 t1 w1 tr1 h
        (inv_buildInsertBlocks o blocks _ w [] t2 w2 tr2 hb
          (inv_new _ root.root_qc root.root_ordered_cert root.root_commit_li mp htc))
  · rw [if_neg hassert] at h
    simp at h

theorem inv_tryCommit {σ : Type} (o : Oracle σ) (t : BlockTree) (w : σ) (hinv : TreeInv t) :
    TreeInv (tryCommit o t w).1 :=
  inv_tryCommitLoop o _ t w [] hinv

theorem inv_newBlockStore {σ : Type} (o : Oracle σ) (root : RootInfo)
    (root_metadata : RootMetadata) (blocks : List Block) (quorum_certs : List QuorumCert)
    (htc : Option TimeoutCertificate) (mp : Nat) (w : σ)
    (t1 : BlockTree) (w1 : σ) (tr1 : List Effect)
    (h : newBlockStore o root root_metadata blocks quorum_certs htc mp w = .ok (t1, w1, tr1)) :
    TreeInv t1 := by
  unfold newBlockStore at h
  rcases hb : build o root root_metadata blocks quorum_certs htc mp w with rb | ⟨t2, w2, tr2⟩
  · rw [hb] at h; simp at h
  · rw [hb] at h
    dsimp only at h
    rcases htcm : tryCommit o t2 w2 with ⟨t3, w3, tr3⟩
    rw [htcm] at h
    simp only [Except.ok.injEq, Prod.mk.injEq] at h
    rw [← h.1]
    have := inv_tryCommit o t2 w2 (inv_build o root root_metadata blocks quorum_certs
      htc mp w t2 w2 tr2 hb)
    rw [htcm] at this
    exact this

theorem inv_rebuild {σ : Type} (o : Oracle σ) (t : BlockTree) (w : σ) (root : RootInfo)
    (root_metadata : RootMetadata) (blocks : List Block) (quorum_certs : List QuorumCert)
    (t2 : BlockTree) (w2 : σ) (tr : List Effect)
    (h : rebuild o t w root root_metadata blocks quorum_certs = .ok (t2, w2, tr)) :
    TreeInv t2 := by
  unfold rebuild at h
  split at h
  · exact absurd h (by simp)
  next tN w1 tr1 heqBuild =>
    split at h
    next pr wp heqPrune =>
      split at h
      next t3 w3 tr3 heqTry =>
        simp only [Except.ok.injEq, Prod.mk.injEq] at h
        rw [← h.1]
        have := inv_tryCommit o tN wp (inv_build o root root_metadata blocks quorum_certs
          t.highest_timeout_cert t.max_pruned_blocks_in_mem w tN w1 tr1 heqBuild)
        rw [heqTry] at this
        exact this

/-! ### C9: reachable trees and the commit-path assertion -/

/-- The block trees reachable through the Block Store interface: a store
built from recovery data, followed by any sequence of block insertions,
QC insertions, TC insertions, commits and rebuilds, under arbitrary
environments. -/
inductive Reachable : BlockTree → Prop where
  | init {σ : Type} (o : Oracle σ) (w : σ) (root : RootInfo) (root_metadata : RootMetadata)
      (blocks : List Block) (quorum_certs : List QuorumCert)
      (htc : Option TimeoutCertificate) (mp : Nat) (t : BlockTree) (w1 : σ)
      (tr : List Effect)
      (h : newBlockStore o root root_metadata blocks quorum_certs htc mp w = .ok (t, w1, tr)) :
      Reachable t
  | insertBlockStep {σ : Type} (o : Oracle σ) (w : σ) (t : BlockTree) (b : Block)
      (h : Reachable t) : Reachable (execute_and_insert_block o t w b).2.1
  | insertQCStep {σ : Type} (o : Oracle σ) (w : σ) (t : BlockTree) (qc : QuorumCert)
      (h : Reachable t) : Reachable (insert_single_quorum_cert o t w qc).2.1
  | insertTCStep {σ : Type} (o : Oracle σ) (w : σ) (t : BlockTree) (tc : TimeoutCertificate)
      (h : Reachable t) : Reachable (insert_timeout_certificate o t w tc).2.1
  | commitStep {σ : Type} (o : Oracle σ) (w : σ) (t : BlockTree)
      (finality_proof : LedgerInfoWithSignatures) (h : Reachable t) :
      Reachable (commit o t w finality_proof).2.1
  | rebuildStep {σ : Type} (o : Oracle σ) (w : σ) (t : BlockTree) (root : RootInfo)
      (root_metadata : RootMetadata) (blocks : List Block) (quorum_certs : List QuorumCert)
      (t2 : BlockTree) (w2 : σ) (tr : List Effect) (h : Reachable t)
      (hr : rebuild o t w root root_metadata blocks quorum_certs = .ok (t2, w2, tr)) :
      Reachable t2

/-- Every reachable tree satisfies the invariant. -/
theorem reachable_inv {t : BlockTree} (h : Reachable t) : TreeInv t := by
  induction h with
  | init o w root root_metadata blocks quorum_certs htc mp t w1 tr h =>
    exact inv_newBlockStore o root root_metadata blocks quorum_certs htc mp w t w1 tr h
  | insertBlockStep o w t b h ih => exact inv_eaib o t w b ih
  | insertQCStep o w t qc h ih => exact inv_isqc o t w qc ih
  | insertTCStep o w t tc h ih => exact inv_itc o t w tc ih
  | commitStep o w t finality_proof h ih => exact inv_commit o t w finality_proof ih
  | rebuildStep o w t root root_metadata blocks quorum_certs t2 w2 tr h hr ih =>
    exact inv_rebuild o t w root root_metadata blocks quorum_certs t2 w2 tr hr

/-- Claim C9: in every reachable tree, whenever the committed block is
present with a round strictly above the ordered root's, the commit path
`path_from_ordered_root(target)` is nonempty — so the
`assert!(!blocks_to_commit.is_empty())` in `commit` never fires. -/
theorem c9_commit_path_nonempty (t : BlockTree) (hreach : Reachable t)
    (finality_proof : LedgerInfoWithSignatures) (bc : ExecutedBlock)
    (hget : t.get_block finality_proof.consensus_block_id = some bc)
    (hr : t.ordered_root_round < bc.block.round) :
    (t.path_from_ordered_root finality_proof.consensus_block_id).getD [] ≠ [] ∧
    ∀ {σ : Type} (o : Oracle σ) (w : σ),
      (commit o t w finality_proof).1 ≠ .error .assertionFailed := by
  have hinv := reachable_inv hreach
  rcases Option.isSome_iff_exists.1 hinv.root_mem with ⟨rootB, hrootB⟩
  have hRR : t.ordered_root_round = rootB.block.round := ordered_root_round_eq hrootB
  have hconn := hinv.connected (finality_proof.consensus_block_id, bc) (lookupId_mem hget)
  rw [path_unfold hrootB hget] at hconn
  rcases Option.isSome_iff_exists.1 hconn with ⟨l, hl⟩
  have hlne : l ≠ [] := by
    have hstep := hl
    rw [pathAux] at hstep
    rw [show lookupId t.blocks finality_proof.consensus_block_id = some bc from hget] at hstep
    dsimp only at hstep
    rw [if_neg (by omega)] at hstep
    have hacc := pathAux_acc_eq t.blocks t.ordered_root_id rootB.block.round
      bc.block.round bc.block.parent_id [bc]
    rw [hacc] at hstep
    cases hc : pathAux t.blocks t.ordered_root_id rootB.block.round bc.block.round
        bc.block.parent_id [] with
    | none => rw [hc] at hstep; exact absurd hstep (by simp)
    | some c =>
      rw [hc] at hstep
      simp only [Option.map_some', Option.some.injEq] at hstep
      intro hcon
      rw [hcon] at hstep
      rcases List.append_eq_nil.1 hstep with ⟨h1, h2⟩
      cases h2
  have hpath : (t.path_from_ordered_root finality_proof.consensus_block_id).getD [] = l := by
    rw [path_unfold hrootB hget, hl]
    rfl
  refine ⟨by rw [hpath]; exact hlne, ?_⟩
  intro σ o w
  have hempty : ((t.path_from_ordered_root finality_proof.consensus_block_id).getD
      []).isEmpty = false := by
    rw [hpath]
    cases l with
    | nil => exact absurd rfl hlne
    | cons x xs => rfl
  rw [show commit o t w finality_proof = (.ok (),
      (commit o t w finality_proof).2.1, (commit o t w finality_proof).2.2.1,
      (commit o t w finality_proof).2.2.2) from ?_]
  · intro hcon
    cases hcon
  · unfold commit
    dsimp only
    rw [hget]
    dsimp only
    rw [if_pos hr, if_neg (by rw [hempty]; intro hcon; cases hcon)]

/-- Recovery data for the C9 witness. -/
def rootInfo0 : RootInfo :=
  { root_block := rootBlock, root_qc := rootQC, root_ordered_cert := rootQC,
    root_commit_li := { consensus_block_id := 1 } }

def meta0 : RootMetadata := { accu_hash := 0, version := 0, num_leaves := 0 }

/-- Witness for C9: after building from genesis and inserting a block at
round 1, the commit path to that block is nonempty. -/
theorem c9_commit_path_nonempty_witness :
    (((execute_and_insert_block okOracle t0 () blockB1).2.1).path_from_ordered_root 2).getD []
      ≠ [] :=
  (c9_commit_path_nonempty _
    (Reachable.insertBlockStep okOracle () t0 blockB1
      (Reachable.init okOracle () rootInfo0 meta0 [] [] none 10 t0 () [] (by rfl)))
    { consensus_block_id := 2 } executedB1 (by decide) (by decide)).1

end Diem
